import Mathlib

/-!
# Verification of the `sqlhelper` library (jack-yi/sql-helper)

A shallow embedding of `sqlhelper.go` in Lean 4, together with proofs about
its specification claims.

Modelling conventions:

* Go strings are modelled as `List Char` (`Str`), one entry per Unicode code
  point (Go's `for range` rune iteration).  Go's `len` on strings is byte
  length; it is modelled by `utf8Len`, which sums the UTF-8 width of each
  code point.  Go's byte-slicing truncation `s[:n]` is modelled by
  `bytesTrunc n`, the longest code-point prefix whose UTF-8 encoding fits in
  `n` bytes (Go would additionally keep the leading bytes of a split rune;
  no claim depends on those partial bytes).
* `strings.ToLower` is modelled on the ASCII range (`lowerChar`), which
  covers every pattern the library matches.  The Go function also folds
  non-ASCII letters, and some folds change a rune's UTF-8 byte length
  (U+0130 folds to `i`, two bytes to one); since the Go
  `replaceCaseInsensitive` applies byte indices computed on the lowered
  buffer to the original text, those folds misalign the two.  The
  code-point model below aligns them by construction and is therefore
  faithful exactly where lowering is byte-length-preserving (in particular
  on ASCII text); `goReplaceCaseInsensitiveBytes` models the raw byte-index
  arithmetic and exhibits the misalignment.
* `norm.NFKC` (external library golang.org/x/text/unicode/norm) is modelled
  by the fragment relevant to this code base: folding of the full-width
  ASCII block and the ideographic space, identity elsewhere.
* Go map iteration order is unspecified; the pattern tables are modelled as
  lists in source-text order.
* `strings.Index`/`strings.Contains`/`strings.ReplaceAll` and the scanning
  loop of `replaceCaseInsensitive` are modelled faithfully (first match,
  non-overlapping, left-to-right, replacement text never rescanned by the
  same pass).  The recursive workers take a fuel argument equal to the
  length of the scanned text so that they are structurally recursive and
  evaluate inside the kernel; fuel never runs out (each step consumes at
  least one character), which the fuel lemmas below make precise.
-/

set_option maxRecDepth 8192

abbrev Str : Type := List Char

instance {ε α : Type} [DecidableEq ε] [DecidableEq α] : DecidableEq (Except ε α) := fun x y =>
  match x, y with
  | .error a, .error b =>
    if h : a = b then .isTrue (congrArg Except.error h)
    else .isFalse (fun hh => h (Except.error.inj hh))
  | .ok a, .ok b =>
    if h : a = b then .isTrue (congrArg Except.ok h)
    else .isFalse (fun hh => h (Except.ok.inj hh))
  | .error _, .ok _ => .isFalse (fun hh => Except.noConfusion hh)
  | .ok _, .error _ => .isFalse (fun hh => Except.noConfusion hh)

/-- Code points of a Lean string literal, used to write Go string constants. -/
def strL (s : String) : Str := s.toList

/-- ASCII fragment of Go `strings.ToLower` (per rune). -/
def lowerChar (c : Char) : Char :=
  if 65 ≤ c.toNat ∧ c.toNat ≤ 90 then Char.ofNat (c.toNat + 32) else c

/-- Go `strings.ToLower`, rune by rune, restricted to the ASCII fold.
Go also folds non-ASCII letters, sometimes changing a rune's UTF-8 byte
length (U+0130 becomes `i`); this per-code-point model is
length-preserving, so statements that depend on the alignment of the
lowered buffer with the original text are faithful only for inputs whose
lowering preserves byte lengths (ASCII in particular). -/
def toLowerStr (s : Str) : Str := s.map lowerChar

/-- UTF-8 byte width of a single code point. -/
def charBytes (c : Char) : Nat :=
  if c.toNat < 0x80 then 1
  else if c.toNat < 0x800 then 2
  else if c.toNat < 0x10000 then 3
  else 4

/-- Go `len` on a string: total UTF-8 byte length. -/
def utf8Len (s : Str) : Nat :=
  match s with
  | [] => 0
  | c :: r => charBytes c + utf8Len r

/-- Longest code-point prefix whose UTF-8 encoding fits in `n` bytes:
model of Go's byte-level truncation `s[:n]`. -/
def bytesTrunc (n : Nat) (s : Str) : Str :=
  match s with
  | [] => []
  | c :: r => if charBytes c ≤ n then c :: bytesTrunc (n - charBytes c) r else []

/-- Model of the Go idiom `if len(s) > n { s = s[:n] }`. -/
def truncCap (n : Nat) (s : Str) : Str :=
  if n < utf8Len s then bytesTrunc n s else s

/-- Character class of Go's regexp `\s`: `[\t\n\f\r ]`. -/
def isGoSpace (c : Char) : Bool :=
  c = ' ' || c = '\t' || c = '\n' || c = '\x0c' || c = '\r'

/-- Unicode white space, as tested by Go `unicode.IsSpace`. -/
def isUniSpace (c : Char) : Bool :=
  (9 ≤ c.toNat && c.toNat ≤ 13) || c.toNat = 32 || c.toNat = 0x85 ||
  c.toNat = 0xA0 || c.toNat = 0x1680 ||
  (0x2000 ≤ c.toNat && c.toNat ≤ 0x200A) || c.toNat = 0x2028 ||
  c.toNat = 0x2029 || c.toNat = 0x202F || c.toNat = 0x205F || c.toNat = 0x3000

/-- Worker for `collapseWS`; the flag records whether the previous character
was part of a whitespace run already emitted as a single space. -/
def cwsAux (inRun : Bool) (s : Str) : Str :=
  match s with
  | [] => []
  | c :: r =>
    if isGoSpace c then
      if inRun then cwsAux true r else ' ' :: cwsAux true r
    else c :: cwsAux false r

/-- Model of `regexp.MustCompile("\\s+").ReplaceAllString(s, " ")`: every
maximal run of `\s` characters becomes a single space. -/
def collapseWS (s : Str) : Str := cwsAux false s

/-- Go `strings.TrimSpace`. -/
def trimSpace (s : Str) : Str :=
  (((s.dropWhile isUniSpace).reverse).dropWhile isUniSpace).reverse

/-- Modelled fragment of Unicode NFKC normalization
(external library `golang.org/x/text/unicode/norm`, not part of this
repository): the full-width ASCII block U+FF01..U+FF5E folds to ASCII, the
ideographic space U+3000 folds to a space; identity elsewhere. -/
def nfkcChar (c : Char) : Str :=
  if 0xFF01 ≤ c.toNat ∧ c.toNat ≤ 0xFF5E then [Char.ofNat (c.toNat - 0xFEE0)]
  else if c.toNat = 0x3000 then [' ']
  else [c]

/-- Modelled `norm.NFKC.String`. -/
def nfkc (s : Str) : Str :=
  match s with
  | [] => []
  | c :: r => nfkcChar c ++ nfkc r

/-- Go `strings.Index` on code-point lists: index of the first occurrence of
`p` in `s` (`some 0` for an empty `p`, as in Go). -/
def findSub (s p : Str) : Option Nat :=
  if p.isPrefixOf s then some 0
  else
    match s with
    | [] => none
    | _ :: t => (findSub t p).map (· + 1)

/-- Go `strings.Contains`. -/
def containsStr (s p : Str) : Bool := (findSub s p).isSome

/-- Fueled worker for `strings.ReplaceAll` (nonempty pattern): replaces
non-overlapping occurrences left to right; the replacement text is never
rescanned by the same pass.  `fuel ≥ s.length` guarantees the scan
completes, since every step consumes at least one character. -/
def replaceAllF (fuel : Nat) (s old new : Str) : Str :=
  match fuel with
  | 0 => s
  | Nat.succ f =>
    match findSub s old with
    | none => s
    | some i => s.take i ++ new ++ replaceAllF f (s.drop (i + old.length)) old new

/-- Go `strings.ReplaceAll` (the library never calls it with an empty
pattern, for which Go would interleave; the model returns `s` there). -/
def replaceAll (s old new : Str) : Str :=
  if old.isEmpty then s else replaceAllF s.length s old new

/-- Fueled worker for `replaceCaseInsensitive` (sqlhelper.go:483-513):
matching is done on the lower-cased text, the untouched segments keep their
original casing, and the scan resumes after each match. -/
def replaceCIF (fuel : Nat) (s old new : Str) : Str :=
  match fuel with
  | 0 => s
  | Nat.succ f =>
    match findSub (toLowerStr s) (toLowerStr old) with
    | none => s
    | some i => s.take i ++ new ++ replaceCIF f (s.drop (i + old.length)) old new

/-- `replaceCaseInsensitive` (sqlhelper.go:483-513).  The Go loop would not
terminate on an empty pattern; the library only ever passes the nonempty
patterns of the tables below, and the model returns `s` in that case.
The Go function computes *byte* indices on the lowered buffer and slices
the original text with them; this model aligns the two by code point,
which matches Go exactly when lowering preserves each rune's byte length
(ASCII text in particular) — `goReplaceCaseInsensitiveBytes` below models
the raw byte-index arithmetic, which diverges on length-changing folds. -/
def replaceCaseInsensitive (s old new : Str) : Str :=
  if old.isEmpty then s else replaceCIF s.length s old new

/-- The pattern loop shared by every validator and by `sanitizeStringInput`:
for each `(pattern, replacement)` pair in turn, if the lower-cased current
text contains the pattern, replace case-insensitively; the lower-cased scan
buffer is rebuilt from the result before the next pattern (Go recomputes
`lower = strings.ToLower(result)` after each replacement).  Go iterates the
pattern map in unspecified order; the tables below list the pairs in
source-text order. -/
def applyPatterns (s : Str) (table : List (Str × Str)) : Str :=
  table.foldl
    (fun t pr => if containsStr (toLowerStr t) pr.1 then replaceCaseInsensitive t pr.1 pr.2 else t)
    s

/-- `ParamType` (sqlhelper.go:16-23). -/
inductive ParamType where
  | generic
  | id
  | name
  | description
deriving DecidableEq, Repr

/-- The allow-list of `IDValidator` and the ID charset test of `InferType`:
`[A-Za-z0-9_-]`, compared on code points exactly as the Go rune ranges. -/
def allowedIDChar (c : Char) : Bool :=
  (97 ≤ c.toNat && c.toNat ≤ 122) || (65 ≤ c.toNat && c.toNat ≤ 90) ||
  (48 ≤ c.toNat && c.toNat ≤ 57) || c.toNat = 45 || c.toNat = 95

/-- `IDValidator.Validate` (sqlhelper.go:40-64): NFKC-normalize, keep
allow-listed characters and replace every other character by `_`, truncate
to 100 bytes. -/
def IDValidator.Validate (value : Str) : Str :=
  truncCap 100 ((nfkc value).map (fun c => if allowedIDChar c then c else '_'))

/-- Pattern table of `DescriptionValidator.Validate` (sqlhelper.go:82-100),
in source-text order (Go iterates this map in unspecified order). -/
def descPatterns : List (Str × Str) :=
  [ (strL "'; drop table", strL "'; drop_table"),
    (strL "'; delete from", strL "'; delete_from"),
    (strL "'; truncate table", strL "'; truncate_table"),
    (strL "'; insert into", strL "'; insert_into"),
    (strL "; drop table", strL "; drop_table"),
    (strL "; delete from", strL "; delete_from"),
    (strL "; truncate table", strL "; truncate_table"),
    (strL "; insert into", strL "; insert_into"),
    (strL "union select", strL "union_select"),
    (strL "union all select", strL "union_all_select"),
    (strL "xp_cmdshell", strL "xp_cmd_shell"),
    (strL "sp_executesql", strL "sp_execute_sql"),
    (strL "--", strL "_-"),
    (strL "/*", strL "/_*"),
    (strL "*/", strL "*_/") ]

/-- `DescriptionValidator.Validate` (sqlhelper.go:73-119): NFKC-normalize,
unify line endings, neutralize the description blocklist, truncate to
10000 bytes. -/
def DescriptionValidator.Validate (value : Str) : Str :=
  truncCap 10000
    (applyPatterns
      (replaceAll (replaceAll (nfkc value) (strL "\r\n") (strL "\n")) (strL "\r") (strL "\n"))
      descPatterns)

/-- Pattern table of `GenericValidator.Validate` (sqlhelper.go:141-162),
in source-text order. -/
def genericPatterns : List (Str × Str) :=
  [ (strL "union select", strL "union_select"),
    (strL "union all select", strL "union_all_select"),
    (strL "'; drop table", strL "'; drop_table"),
    (strL "'; delete from", strL "'; delete_from"),
    (strL "'; truncate table", strL "'; truncate_table"),
    (strL "'; insert into", strL "'; insert_into"),
    (strL "'; update ", strL "'; update_"),
    (strL "; drop table", strL "; drop_table"),
    (strL "; delete from", strL "; delete_from"),
    (strL "; truncate table", strL "; truncate_table"),
    (strL "; insert into", strL "; insert_into"),
    (strL "; update ", strL "; update_"),
    (strL " or 1=1", strL "_or_1=1"),
    (strL " or '1'='1", strL "_or_'1'='1"),
    (strL " and 1=1", strL "_and_1=1"),
    (strL "/*", strL "/_*"),
    (strL "*/", strL "*_/"),
    (strL "--", strL "__"),
    (strL "xp_cmdshell", strL "xp_cmd_shell"),
    (strL "sp_executesql", strL "sp_execute_sql") ]

/-- The whitespace policy shared by `GenericValidator` and `NameValidator`
(sqlhelper.go:133-138, 195-200): tab, line feed and carriage return become
spaces, runs of `\s` collapse to one space, then `strings.TrimSpace`. -/
def unifyWS (s : Str) : Str :=
  trimSpace (collapseWS
    (replaceAll (replaceAll (replaceAll s (strL "\t") (strL " ")) (strL "\n") (strL " "))
      (strL "\r") (strL " ")))

/-- `GenericValidator.Validate` (sqlhelper.go:128-181). -/
def GenericValidator.Validate (value : Str) : Str :=
  truncCap 2000 (applyPatterns (unifyWS (nfkc value)) genericPatterns)

/-- Pattern table of `NameValidator.Validate` (sqlhelper.go:203-230),
in source-text order. -/
def namePatternTable : List (Str × Str) :=
  [ (strL "union select", strL "union_select"),
    (strL "union all select", strL "union_all_select"),
    (strL " or ", strL "_or_"),
    (strL " and ", strL "_and_"),
    (strL "' or '", strL "'_or_'"),
    (strL "\" or \"", strL "\"_or_\""),
    (strL "' and '", strL "'_and_'"),
    (strL "\" and \"", strL "\"_and_\""),
    (strL " or 1=1", strL "_or_1=1"),
    (strL " or '1'='1", strL "_or_'1'='1"),
    (strL "'; drop table", strL "'; drop_table"),
    (strL "'; delete from", strL "'; delete_from"),
    (strL "'; insert into", strL "'; insert_into"),
    (strL "'; update set", strL "'; update_set"),
    (strL "/*", strL "/_*"),
    (strL "*/", strL "*_/"),
    (strL "--", strL "__"),
    (strL "#", strL "_#"),
    (strL "xp_cmdshell", strL "xp_cmd_shell"),
    (strL "sp_executesql", strL "sp_execute_sql"),
    (strL "ascii", strL "_ascii_"),
    (strL "substring", strL "_substring_"),
    (strL "concat", strL "_concat_"),
    (strL "extractvalue", strL "_extractvalue_"),
    (strL "waitfor", strL "_waitfor_"),
    (strL "delay", strL "_delay_") ]

/-- `NameValidator.Validate` (sqlhelper.go:190-249). -/
def NameValidator.Validate (value : Str) : Str :=
  truncCap 500 (applyPatterns (unifyWS (nfkc value)) namePatternTable)

/-- `TypeAwareProcessor.GetValidator` (sqlhelper.go:257-283): the registry
built by `NewTypeAwareProcessor` maps each of the four types to its
validator; the `Generic` fallback branch for unregistered types is
unreachable for this closed enum. -/
def TypeAwareProcessor.GetValidator (paramType : ParamType) : Str → Str :=
  match paramType with
  | .id => IDValidator.Validate
  | .name => NameValidator.Validate
  | .description => DescriptionValidator.Validate
  | .generic => GenericValidator.Validate

/-- `TypeAwareProcessor.ProcessString` (sqlhelper.go:286-289). -/
def TypeAwareProcessor.ProcessString (value : Str) (paramType : ParamType) : Str :=
  TypeAwareProcessor.GetValidator paramType value

/-- CJK test of `InferType` (sqlhelper.go:326-334): basic block, extension
A, compatibility block. -/
def isCJK (c : Char) : Bool :=
  (0x4e00 ≤ c.toNat && c.toNat ≤ 0x9fff) ||
  (0x3400 ≤ c.toNat && c.toNat ≤ 0x4dbf) ||
  (0xf900 ≤ c.toNat && c.toNat ≤ 0xfaff)

/-- Locale-specific naming substrings of `InferType` (sqlhelper.go:338). -/
def namePatterns : List Str :=
  [strL "项目", strL "小区", strL "大厦", strL "广场", strL "中心", strL "花园",
   strL "公寓", strL "别墅", strL "期", strL "区", strL "号"]

/-- `TypeInferrer.InferType` (sqlhelper.go:298-353). -/
def TypeInferrer.InferType (value : Str) : ParamType :=
  if value.isEmpty then .generic
  else if utf8Len value ≤ 100 && value.all allowedIDChar then .id
  else if 500 < utf8Len value || containsStr value (strL "\n") || containsStr value (strL "\r") then
    .description
  else if value.any isCJK || namePatterns.any (fun p => containsStr value p) then .name
  else .generic

/-- `quoteString` (sqlhelper.go:515-526): the eight escape substitutions in
source order, then wrapping in single quotes. -/
def quoteString (s : Str) : Str :=
  let s1 := replaceAll s ['\\'] ['\\', '\\']
  let s2 := replaceAll s1 ['\''] ['\'', '\'']
  let s3 := replaceAll s2 ['"'] ['\\', '"']
  let s4 := replaceAll s3 ['\n'] ['\\', 'n']
  let s5 := replaceAll s4 ['\r'] ['\\', 'r']
  let s6 := replaceAll s5 ['\t'] ['\\', 't']
  let s7 := replaceAll s6 ['\x00'] ['\\', '0']
  let s8 := replaceAll s7 ['\x1a'] ['\\', 'Z']
  '\'' :: s8 ++ ['\'']

/-- Pattern table of `sanitizeStringInput` (sqlhelper.go:451-465), in
source-text order. -/
def sanitizePatterns : List (Str × Str) :=
  [ (strL "union select", strL "union_select"),
    (strL "union all select", strL "union_all_select"),
    (strL "' or '1'='1", strL "'_or_'1'='1"),
    (strL "' or 1=1", strL "'_or_1=1"),
    (strL "'; drop table", strL "';_drop_table"),
    (strL "'; delete from", strL "';_delete_from"),
    (strL "'; update ", strL "';_update_"),
    (strL "'; insert into", strL "';_insert_into"),
    (strL "/*", strL "/_*"),
    (strL "*/", strL "*_/"),
    (strL "--", strL "__"),
    (strL "xp_cmdshell", strL "xp_cmd_shell"),
    (strL "sp_executesql", strL "sp_execute_sql") ]

/-- `sanitizeStringInput` (sqlhelper.go:444-480): truncate the input to
65535 bytes, then neutralize the blocklist.  There is no truncation after
the replacements. -/
def sanitizeStringInput (s : Str) : Str :=
  applyPatterns (truncCap 65535 s) sanitizePatterns

/-- The modelled fragment of Go runtime values reaching `literal`
(sqlhelper.go:394-430).  `vInt` covers the signed and unsigned integer
widths (all printed with `%d`); `vOther` stands for any value of a type
outside the switch that does not implement `driver.Valuer` (the
`float`/`time.Time`/`driver.Valuer` branches are outside the modelled
fragment; none of the claims concerns them). -/
inductive SqlValue where
  | vNull
  | vBool (b : Bool)
  | vInt (i : Int)
  | vStr (s : Str)
  | vBytes (b : Str)
  | vOther (tyName : Str)
deriving DecidableEq, Repr

/-- The errors of the modelled fragment: the two arity errors of `Expand`
("占位符个数 > 参数个数" / "占位符个数 < 参数个数") and the
`unsupported type %T` error of `literal`. -/
inductive SqlErr where
  | arityMorePlaceholders
  | arityMoreValues
  | unsupportedType (tyName : Str)
deriving DecidableEq, Repr

/-- `strconv.FormatBool`. -/
def boolLit (b : Bool) : Str := if b then strL "true" else strL "false"

/-- `fmt.Sprintf("%d", v)` on the integer branch. -/
def intLit (i : Int) : Str :=
  if i < 0 then '-' :: Nat.toDigits 10 i.natAbs else Nat.toDigits 10 i.toNat

/-- `literal` (sqlhelper.go:394-430) on the modelled value fragment.  The
`string` and `[]byte` branches are the source's two textually identical
pipelines: infer the type, validate with the registered validator, quote. -/
def literal (v : SqlValue) : Except SqlErr Str :=
  match v with
  | .vNull => .ok (strL "NULL")
  | .vBool b => .ok (boolLit b)
  | .vInt i => .ok (intLit i)
  | .vStr s =>
    .ok (quoteString (TypeAwareProcessor.ProcessString s (TypeInferrer.InferType s)))
  | .vBytes b =>
    .ok (quoteString (TypeAwareProcessor.ProcessString b (TypeInferrer.InferType b)))
  | .vOther tyName => .error (.unsupportedType tyName)

/-- `Expand` (sqlhelper.go:360-386): scan the template left to right; each
`?` consumes the next value (failing immediately when none is left), the
encoded literal is spliced in, and after the scan leftover values are an
error.  Errors carry no partial text (Go returns `""` with the error). -/
def Expand (sql : Str) (vars : List SqlValue) : Except SqlErr Str :=
  match sql with
  | [] => if vars.isEmpty then .ok [] else .error .arityMoreValues
  | c :: rest =>
    if c = '?' then
      match vars with
      | [] => .error .arityMorePlaceholders
      | v :: vs =>
        match literal v with
        | .error e => .error e
        | .ok lit =>
          match Expand rest vs with
          | .error e => .error e
          | .ok tail => .ok (lit ++ tail)
    else
      match Expand rest vars with
      | .error e => .error e
      | .ok tail => .ok (c :: tail)

-- A few evaluation sanity checks for the core string machinery.
example : replaceAll (strL "a-b-c") (strL "-") (strL "__") = strL "a__b__c" := by decide
example : replaceCaseInsensitive (strL "xAbxaB") (strL "ab") (strL "Z") = strL "xZxZ" := by decide
example : collapseWS (strL "a  b\t\tc") = strL "a b c" := by decide
example : trimSpace (strL "  ab ") = strL "ab" := by decide
example : truncCap 3 (strL "abcde") = strL "abc" := by decide
example : nfkc (strL "ａｂ") = strL "ab" := by decide

-- Sanity checks against the repository's Go test suite.
example : IDValidator.Validate (strL "project@123#abc") = strL "project_123_abc" := by decide
example : IDValidator.Validate (strL "ｐｒｏｊｅｃｔ１２３") = strL "project123" := by decide
example : NameValidator.Validate (strL "项目'; DROP TABLE users--") =
    strL "项目'; drop_table users__" := by decide
example : NameValidator.Validate (strL "项目' UnIoN sElEcT * FROM users") =
    strL "项目' union_select * FROM users" := by decide
example : GenericValidator.Validate (strL "test' OR 1=1--") = strL "test'_or_1=1__" := by decide
example : DescriptionValidator.Validate (strL "项目描述'; DROP TABLE users; --") =
    strL "项目描述'; drop_table users; _-" := by decide
example : TypeInferrer.InferType (strL "general text content") = .generic := by decide
example : TypeInferrer.InferType (strL "项目描述\n第二行内容") = .description := by decide
example : TypeInferrer.InferType (strL "某某小区1期") = .name := by decide
example : literal (.vStr (strL "＇　ｕｎｉｏｎ　ｓｅｌｅｃｔ")) =
    .ok (strL "''' union_select'") := by decide
example : sanitizeStringInput (strL "'; UNION SELECT * FROM users--") =
    strL "'; union_select * FROM users__" := by decide
example : Expand (strL "SELECT * FROM users WHERE id = ? AND name = ?")
    [.vInt 123, .vStr (strL "john")] =
    .ok (strL "SELECT * FROM users WHERE id = 123 AND name = 'john'") := by decide
example : Expand (strL "INSERT INTO t (a, b) VALUES (?, ?)") [.vNull, .vStr (strL "value")] =
    .ok (strL "INSERT INTO t (a, b) VALUES (NULL, 'value')") := by decide
example : Expand (strL "SELECT * FROM users WHERE id = ?") [.vInt 123, .vStr (strL "extra")] =
    .error .arityMoreValues := by decide
example : Expand (strL "SELECT * FROM users WHERE id = ? AND name = ?") [.vInt 123] =
    .error .arityMorePlaceholders := by decide

/-! ## Basic facts about the scanning primitives -/

theorem isEmpty_false_of_ne {l : Str} (h : l ≠ []) : l.isEmpty = false := by
  cases l with
  | nil => exact absurd rfl h
  | cons a t => rfl

theorem length_toLowerStr (s : Str) : (toLowerStr s).length = s.length :=
  List.length_map s lowerChar

theorem toLowerStr_ne_nil {s : Str} (h : s ≠ []) : toLowerStr s ≠ [] := by
  cases s with
  | nil => exact absurd rfl h
  | cons a t => simp [toLowerStr]

theorem findSub_nil {p : Str} (hp : p ≠ []) : findSub [] p = none := by
  cases p with
  | nil => exact absurd rfl hp
  | cons a t => rfl

theorem findSub_ne_nil {s p : Str} {i : Nat} (hp : p ≠ []) (h : findSub s p = some i) :
    s ≠ [] := by
  intro hs
  rw [hs, findSub_nil hp] at h
  exact Option.noConfusion h

theorem findSub_of_isPrefixOf {s p : Str} (h : p.isPrefixOf s) : findSub s p = some 0 := by
  rw [findSub.eq_def, if_pos h]

theorem findSub_cons_of_not {c : Char} {t p : Str} (h : ¬ p.isPrefixOf (c :: t) = true) :
    findSub (c :: t) p = (findSub t p).map (· + 1) := by
  rw [findSub.eq_def, if_neg h]

/-- Soundness of `findSub`: a hit is an occurrence at that index. -/
theorem findSub_some : ∀ (s : Str) {p : Str} {i : Nat}, findSub s p = some i →
    ∃ l r : Str, s = l ++ p ++ r ∧ l.length = i := by
  intro s
  induction s with
  | nil =>
    intro p i h
    rw [findSub] at h
    split at h
    · rename_i hpre
      rw [List.isPrefixOf_iff_prefix] at hpre
      rcases hpre with ⟨r, hr⟩
      exact ⟨[], r, by simp [← hr], by simpa using Option.some.inj h⟩
    · exact Option.noConfusion h
  | cons c t ih =>
    intro p i h
    rw [findSub] at h
    split at h
    · rename_i hpre
      rw [List.isPrefixOf_iff_prefix] at hpre
      rcases hpre with ⟨r, hr⟩
      exact ⟨[], r, by simp [← hr], by simpa using Option.some.inj h⟩
    · rcases Option.map_eq_some'.mp h with ⟨j, hj, hij⟩
      rcases ih hj with ⟨l, r, hlr, hlen⟩
      exact ⟨c :: l, r, by simp [hlr], by simp [hlen, hij]⟩

/-- Completeness of `findSub`: it finds every occurrence. -/
theorem findSub_isSome (l p r : Str) : (findSub (l ++ p ++ r) p).isSome = true := by
  induction l with
  | nil =>
    simp only [List.nil_append]
    rw [findSub_of_isPrefixOf (List.isPrefixOf_iff_prefix.mpr ⟨r, rfl⟩)]
    rfl
  | cons c t ih =>
    simp only [List.cons_append]
    by_cases hpre : p.isPrefixOf (c :: (t ++ p ++ r)) = true
    · rw [findSub_of_isPrefixOf hpre]; rfl
    · rw [findSub_cons_of_not hpre]
      simpa using ih

theorem containsStr_iff {s p : Str} : containsStr s p = true ↔ ∃ l r : Str, s = l ++ p ++ r := by
  constructor
  · intro h
    rcases Option.isSome_iff_exists.mp h with ⟨i, hi⟩
    rcases findSub_some s hi with ⟨l, r, hlr, _⟩
    exact ⟨l, r, hlr⟩
  · rintro ⟨l, r, rfl⟩
    exact findSub_isSome l p r

theorem containsStr_false_of_absent {c : Char} {s p : Str} (hcp : c ∈ p) (hcs : c ∉ s) :
    containsStr s p = false := by
  cases hx : containsStr s p with
  | false => rfl
  | true =>
    rcases containsStr_iff.mp hx with ⟨l, r, rfl⟩
    exact absurd (by simp [List.mem_append, hcp]) hcs

theorem findSub_replicate {a h : Char} {p : Str} (hh : p.head? = some h) (hne : h ≠ a) :
    ∀ (n : Nat) (s : Str),
      findSub (List.replicate n a ++ s) p = (findSub s p).map (· + n) := by
  intro n
  induction n with
  | zero =>
    intro s
    cases hfs : findSub s p <;> simp [hfs]
  | succ m ih =>
    intro s
    rw [List.replicate_succ, List.cons_append]
    have hpre : ¬ p.isPrefixOf (a :: (List.replicate m a ++ s)) = true := by
      cases p with
      | nil => exact Option.noConfusion hh
      | cons h0 t =>
        have : h0 = h := by simpa using hh
        subst this
        rw [List.isPrefixOf_iff_prefix]
        intro hcon
        exact hne (List.cons_prefix_cons.mp hcon).1
    rw [findSub_cons_of_not hpre, ih s]
    cases hfs : findSub s p <;> simp [hfs, Nat.add_assoc]

/-! ## Fuel elimination for the replacement scanners -/

theorem replaceAllF_succ_none {s old new : Str} {f : Nat} (h : findSub s old = none) :
    replaceAllF (f + 1) s old new = s := by
  rw [replaceAllF, h]

theorem replaceAllF_succ_some {s old new : Str} {f i : Nat} (h : findSub s old = some i) :
    replaceAllF (f + 1) s old new =
      s.take i ++ new ++ replaceAllF f (s.drop (i + old.length)) old new := by
  rw [replaceAllF, h]

theorem replaceAllF_nil {old : Str} (hp : old ≠ []) (f : Nat) (new : Str) :
    replaceAllF f [] old new = [] := by
  cases f with
  | zero => rfl
  | succ g => exact replaceAllF_succ_none (findSub_nil hp)

theorem replaceAllF_fuel {old : Str} (hp : old ≠ []) :
    ∀ (f g : Nat) (s new : Str), s.length ≤ f → s.length ≤ g →
      replaceAllF f s old new = replaceAllF g s old new := by
  intro f
  induction f with
  | zero =>
    intro g s new hf hg
    have hs : s = [] := List.length_eq_zero.mp (Nat.le_zero.mp hf)
    subst hs
    rw [replaceAllF_nil hp, replaceAllF_nil hp]
  | succ f ih =>
    intro g s new hf hg
    cases g with
    | zero =>
      have hs : s = [] := List.length_eq_zero.mp (Nat.le_zero.mp hg)
      subst hs
      rw [replaceAllF_nil hp, replaceAllF_nil hp]
    | succ g' =>
      cases hfind : findSub s old with
      | none => rw [replaceAllF_succ_none hfind, replaceAllF_succ_none hfind]
      | some i =>
        have hs : s ≠ [] := findSub_ne_nil hp hfind
        have hlen : 0 < s.length := List.length_pos.mpr hs
        have hop : 0 < old.length := List.length_pos.mpr hp
        have hd : (s.drop (i + old.length)).length ≤ s.length - 1 := by
          rw [List.length_drop]
          omega
        rw [replaceAllF_succ_some hfind, replaceAllF_succ_some hfind,
          ih g' (s.drop (i + old.length)) new (by omega) (by omega)]

theorem replaceAll_of_none {s old new : Str} (hp : old ≠ [])
    (h : findSub s old = none) : replaceAll s old new = s := by
  rw [replaceAll, if_neg (by simp [isEmpty_false_of_ne hp])]
  cases hs : s with
  | nil => exact replaceAllF_nil hp _ new
  | cons c t => exact replaceAllF_succ_none (hs ▸ h)

theorem replaceAll_of_some {s old new : Str} {i : Nat} (hp : old ≠ [])
    (h : findSub s old = some i) :
    replaceAll s old new = s.take i ++ new ++ replaceAll (s.drop (i + old.length)) old new := by
  have hs : s ≠ [] := findSub_ne_nil hp h
  have hop : 0 < old.length := List.length_pos.mpr hp
  have hlen : 0 < s.length := List.length_pos.mpr hs
  rw [replaceAll, replaceAll, if_neg (by simp [isEmpty_false_of_ne hp]),
    if_neg (by simp [isEmpty_false_of_ne hp])]
  obtain ⟨m, hm⟩ : ∃ m, s.length = m + 1 := ⟨s.length - 1, by omega⟩
  rw [hm, replaceAllF_succ_some h,
    replaceAllF_fuel hp m (s.drop (i + old.length)).length (s.drop (i + old.length)) new
      (by rw [List.length_drop]; omega) (Nat.le_refl _)]

theorem replaceCIF_succ_none {s old new : Str} {f : Nat}
    (h : findSub (toLowerStr s) (toLowerStr old) = none) :
    replaceCIF (f + 1) s old new = s := by
  rw [replaceCIF, h]

theorem replaceCIF_succ_some {s old new : Str} {f i : Nat}
    (h : findSub (toLowerStr s) (toLowerStr old) = some i) :
    replaceCIF (f + 1) s old new =
      s.take i ++ new ++ replaceCIF f (s.drop (i + old.length)) old new := by
  rw [replaceCIF, h]

theorem replaceCIF_nil {old : Str} (hp : old ≠ []) (f : Nat) (new : Str) :
    replaceCIF f [] old new = [] := by
  cases f with
  | zero => rfl
  | succ g =>
    refine replaceCIF_succ_none ?_
    have h0 : toLowerStr ([] : Str) = [] := rfl
    rw [h0, findSub_nil (toLowerStr_ne_nil hp)]

theorem length_pos_of_findSub_lower {s old : Str} {i : Nat} (hp : old ≠ [])
    (h : findSub (toLowerStr s) (toLowerStr old) = some i) : 0 < s.length := by
  have hs : toLowerStr s ≠ [] := findSub_ne_nil (toLowerStr_ne_nil hp) h
  have h1 := List.length_pos.mpr hs
  rwa [length_toLowerStr] at h1

theorem replaceCIF_fuel {old : Str} (hp : old ≠ []) :
    ∀ (f g : Nat) (s new : Str), s.length ≤ f → s.length ≤ g →
      replaceCIF f s old new = replaceCIF g s old new := by
  intro f
  induction f with
  | zero =>
    intro g s new hf hg
    have hs : s = [] := List.length_eq_zero.mp (Nat.le_zero.mp hf)
    subst hs
    rw [replaceCIF_nil hp, replaceCIF_nil hp]
  | succ f ih =>
    intro g s new hf hg
    cases g with
    | zero =>
      have hs : s = [] := List.length_eq_zero.mp (Nat.le_zero.mp hg)
      subst hs
      rw [replaceCIF_nil hp, replaceCIF_nil hp]
    | succ g' =>
      cases hfind : findSub (toLowerStr s) (toLowerStr old) with
      | none => rw [replaceCIF_succ_none hfind, replaceCIF_succ_none hfind]
      | some i =>
        have hlen : 0 < s.length := length_pos_of_findSub_lower hp hfind
        have hop : 0 < old.length := List.length_pos.mpr hp
        have hd : (s.drop (i + old.length)).length ≤ s.length - 1 := by
          rw [List.length_drop]
          omega
        rw [replaceCIF_succ_some hfind, replaceCIF_succ_some hfind,
          ih g' (s.drop (i + old.length)) new (by omega) (by omega)]

theorem replaceCI_of_none {s old new : Str} (hp : old ≠ [])
    (h : findSub (toLowerStr s) (toLowerStr old) = none) :
    replaceCaseInsensitive s old new = s := by
  rw [replaceCaseInsensitive, if_neg (by simp [isEmpty_false_of_ne hp])]
  cases hs : s with
  | nil => exact replaceCIF_nil hp _ new
  | cons c t => exact replaceCIF_succ_none (hs ▸ h)

theorem replaceCI_of_some {s old new : Str} {i : Nat} (hp : old ≠ [])
    (h : findSub (toLowerStr s) (toLowerStr old) = some i) :
    replaceCaseInsensitive s old new =
      s.take i ++ new ++ replaceCaseInsensitive (s.drop (i + old.length)) old new := by
  have hlen : 0 < s.length := length_pos_of_findSub_lower hp h
  have hop : 0 < old.length := List.length_pos.mpr hp
  rw [replaceCaseInsensitive, replaceCaseInsensitive,
    if_neg (by simp [isEmpty_false_of_ne hp]), if_neg (by simp [isEmpty_false_of_ne hp])]
  obtain ⟨m, hm⟩ : ∃ m, s.length = m + 1 := ⟨s.length - 1, by omega⟩
  rw [hm, replaceCIF_succ_some h,
    replaceCIF_fuel hp m (s.drop (i + old.length)).length (s.drop (i + old.length)) new
      (by rw [List.length_drop]; omega) (Nat.le_refl _)]

/-! ## `quoteString` as a single character-wise pass -/

/-- Character-wise substitution: the effect of one `strings.ReplaceAll` pass
with a single-character pattern. -/
def subst (c : Char) (rep : Str) : Str → Str
  | [] => []
  | x :: t => (if x = c then rep else [x]) ++ subst c rep t

theorem subst_append (c : Char) (rep a b : Str) :
    subst c rep (a ++ b) = subst c rep a ++ subst c rep b := by
  induction a with
  | nil => rfl
  | cons x t ih => simp [subst, ih]

theorem replaceAll_cons_eq (c : Char) (t rep : Str) :
    replaceAll (c :: t) [c] rep = rep ++ replaceAll t [c] rep := by
  have hp : ([c] : Str) ≠ [] := by simp
  have hpre : ([c] : Str).isPrefixOf (c :: t) = true := by simp [List.isPrefixOf]
  rw [replaceAll_of_some hp (findSub_of_isPrefixOf hpre)]
  simp

theorem replaceAll_cons_ne {x c : Char} (hx : x ≠ c) (t rep : Str) :
    replaceAll (x :: t) [c] rep = x :: replaceAll t [c] rep := by
  have hp : ([c] : Str) ≠ [] := by simp
  have hpre : ¬ ([c] : Str).isPrefixOf (x :: t) = true := by
    simp [List.isPrefixOf]
    exact Ne.symm hx
  cases hft : findSub t [c] with
  | none =>
    have hfx : findSub (x :: t) [c] = none := by
      rw [findSub_cons_of_not hpre, hft]; rfl
    rw [replaceAll_of_none hp hfx, replaceAll_of_none hp hft]
  | some j =>
    have hfx : findSub (x :: t) [c] = some (j + 1) := by
      rw [findSub_cons_of_not hpre, hft]; rfl
    rw [replaceAll_of_some hp hfx, replaceAll_of_some hp hft]
    simp

theorem replaceAll_single (c : Char) (rep : Str) : ∀ s : Str,
    replaceAll s [c] rep = subst c rep s := by
  have hp : ([c] : Str) ≠ [] := by simp
  intro s
  induction s with
  | nil => rw [replaceAll_of_none hp (findSub_nil hp)]; rfl
  | cons x t ih =>
    by_cases hx : x = c
    · subst hx
      rw [replaceAll_cons_eq, ih]
      simp [subst]
    · rw [replaceAll_cons_ne hx, ih]
      simp [subst, hx]

/-- The character table of `quoteString`, read off the spec's substitution
list: each character escapes independently of its neighbours. -/
def escChar (c : Char) : Str :=
  if c = '\\' then ['\\', '\\']
  else if c = '\'' then ['\'', '\'']
  else if c = '"' then ['\\', '"']
  else if c = '\n' then ['\\', 'n']
  else if c = '\r' then ['\\', 'r']
  else if c = '\t' then ['\\', 't']
  else if c = '\x00' then ['\\', '0']
  else if c = '\x1a' then ['\\', 'Z']
  else [c]

/-- Character-wise escaping of a whole string (specification side). -/
def escBody : Str → Str
  | [] => []
  | c :: t => escChar c ++ escBody t

/-- The eight sequential passes of `quoteString`, expressed as nested
character-wise substitutions (innermost first, as in the source). -/
def substChain (s : Str) : Str :=
  subst '\x1a' ['\\', 'Z'] (subst '\x00' ['\\', '0'] (subst '\t' ['\\', 't']
    (subst '\r' ['\\', 'r'] (subst '\n' ['\\', 'n'] (subst '"' ['\\', '"']
      (subst '\'' ['\'', '\''] (subst '\\' ['\\', '\\'] s)))))))

theorem quoteString_eq_substChain (s : Str) :
    quoteString s = '\'' :: substChain s ++ ['\''] := by
  simp only [quoteString, substChain, replaceAll_single]

theorem substChain_append (a b : Str) :
    substChain (a ++ b) = substChain a ++ substChain b := by
  simp only [substChain, subst_append]

theorem substChain_single (x : Char) : substChain [x] = escChar x := by
  by_cases h1 : x = '\\'
  · subst h1; decide
  by_cases h2 : x = '\''
  · subst h2; decide
  by_cases h3 : x = '"'
  · subst h3; decide
  by_cases h4 : x = '\n'
  · subst h4; decide
  by_cases h5 : x = '\r'
  · subst h5; decide
  by_cases h6 : x = '\t'
  · subst h6; decide
  by_cases h7 : x = '\x00'
  · subst h7; decide
  by_cases h8 : x = '\x1a'
  · subst h8; decide
  simp [substChain, subst, escChar, h1, h2, h3, h4, h5, h6, h7, h8]

theorem substChain_eq_escBody (s : Str) : substChain s = escBody s := by
  induction s with
  | nil => rfl
  | cons x t ih =>
    have hx : (x :: t : Str) = [x] ++ t := rfl
    rw [hx, substChain_append, substChain_single, ih]
    rfl

theorem quoteString_charwise (s : Str) :
    quoteString s = '\'' :: escBody s ++ ['\''] := by
  rw [quoteString_eq_substChain, substChain_eq_escBody]

/-! ## Byte-length bookkeeping -/

theorem one_le_charBytes (c : Char) : 1 ≤ charBytes c := by
  unfold charBytes
  repeat' split
  all_goals omega

theorem utf8Len_append (a b : Str) : utf8Len (a ++ b) = utf8Len a + utf8Len b := by
  induction a with
  | nil => simp [utf8Len]
  | cons c t ih =>
    show charBytes c + utf8Len (t ++ b) = charBytes c + utf8Len t + utf8Len b
    rw [ih]
    omega

theorem utf8Len_replicate (n : Nat) (c : Char) :
    utf8Len (List.replicate n c) = n * charBytes c := by
  induction n with
  | zero => simp [utf8Len]
  | succ m ih =>
    rw [List.replicate_succ]
    show charBytes c + utf8Len (List.replicate m c) = (m + 1) * charBytes c
    rw [ih]
    ring

theorem length_le_utf8Len (s : Str) : s.length ≤ utf8Len s := by
  induction s with
  | nil => exact Nat.le_refl 0
  | cons c t ih =>
    show t.length + 1 ≤ charBytes c + utf8Len t
    have := one_le_charBytes c
    omega

theorem utf8Len_bytesTrunc_le (n : Nat) (s : Str) : utf8Len (bytesTrunc n s) ≤ n := by
  induction s generalizing n with
  | nil => exact Nat.zero_le n
  | cons c r ih =>
    rw [bytesTrunc]
    split
    · rename_i hcb
      show charBytes c + utf8Len (bytesTrunc (n - charBytes c) r) ≤ n
      have := ih (n - charBytes c)
      omega
    · exact Nat.zero_le n

theorem utf8Len_truncCap_le (n : Nat) (s : Str) : utf8Len (truncCap n s) ≤ n := by
  rw [truncCap]
  split
  · exact utf8Len_bytesTrunc_le n s
  · omega

theorem bytesTrunc_eq_take (n : Nat) (s : Str) : ∃ k, bytesTrunc n s = s.take k := by
  induction s generalizing n with
  | nil => exact ⟨0, rfl⟩
  | cons c r ih =>
    rw [bytesTrunc]
    split
    · rcases ih (n - charBytes c) with ⟨k, hk⟩
      exact ⟨k + 1, by rw [hk]; rfl⟩
    · exact ⟨0, rfl⟩

theorem truncCap_eq_take (n : Nat) (s : Str) : ∃ k, truncCap n s = s.take k := by
  rw [truncCap]
  split
  · exact bytesTrunc_eq_take n s
  · exact ⟨s.length, (List.take_length s).symm⟩

theorem mem_truncCap {a : Char} {n : Nat} {s : Str} (h : a ∈ truncCap n s) : a ∈ s := by
  rcases truncCap_eq_take n s with ⟨k, hk⟩
  rw [hk] at h
  exact List.take_subset k s h

theorem truncCap_of_le {n : Nat} {s : Str} (h : utf8Len s ≤ n) : truncCap n s = s := by
  rw [truncCap, if_neg (by omega)]

/-! ## Placeholder expansion -/

/-- Number of `?` placeholders in a template. -/
def countQ : Str → Nat
  | [] => 0
  | c :: r => (if c = '?' then 1 else 0) + countQ r

/-- The literal segments of a template, split at every `?` (one more
segment than placeholders). -/
def splitQ : Str → List Str
  | [] => [[]]
  | c :: r =>
    if c = '?' then [] :: splitQ r
    else
      match splitQ r with
      | [] => [[c]]
      | s :: ss => (c :: s) :: ss

/-- Interleave the literal segments with the encoded values, in order. -/
def weave : List Str → List Str → Str
  | [], _ => []
  | s :: _, [] => s
  | s :: ss, l :: ls => s ++ l ++ weave ss ls

theorem splitQ_ne_nil : ∀ s : Str, splitQ s ≠ [] := by
  intro s
  cases s with
  | nil => simp [splitQ]
  | cons c r =>
    rw [splitQ]
    split
    · simp
    · split <;> simp

theorem weave_cons_cons (c : Char) (s : Str) (ss lits : List Str) :
    weave ((c :: s) :: ss) lits = c :: weave (s :: ss) lits := by
  cases lits with
  | nil => rfl
  | cons l ls => simp [weave]

theorem countQ_cons_q (r : Str) : countQ ('?' :: r) = 1 + countQ r := by
  simp [countQ]

theorem countQ_cons_ne {c : Char} (hc : c ≠ '?') (r : Str) : countQ (c :: r) = countQ r := by
  simp [countQ, hc]

theorem Expand_nil_nil : Expand [] [] = .ok [] := rfl

theorem Expand_nil_cons (v : SqlValue) (vs : List SqlValue) :
    Expand [] (v :: vs) = .error .arityMoreValues := rfl

theorem Expand_q_nil (r : Str) : Expand ('?' :: r) [] = .error .arityMorePlaceholders := by
  rw [Expand, if_pos rfl]

theorem Expand_q_cons (r : Str) (v : SqlValue) (vs : List SqlValue) :
    Expand ('?' :: r) (v :: vs) =
      match literal v with
      | .error e => .error e
      | .ok lit =>
        match Expand r vs with
        | .error e => .error e
        | .ok tail => .ok (lit ++ tail) := by
  rw [Expand, if_pos rfl]

theorem Expand_nq {c : Char} (hc : c ≠ '?') (r : Str) (vals : List SqlValue) :
    Expand (c :: r) vals =
      match Expand r vals with
      | .error e => .error e
      | .ok tail => .ok (c :: tail) := by
  rw [Expand.eq_def]
  dsimp only
  rw [if_neg hc]

theorem literal_error_unsupported {v : SqlValue} {e : SqlErr} (h : literal v = .error e) :
    ∃ tn, e = .unsupportedType tn := by
  cases v with
  | vOther tn => exact ⟨tn, (Except.error.inj h).symm⟩
  | vNull => exact Except.noConfusion h
  | vBool b => exact Except.noConfusion h
  | vInt i => exact Except.noConfusion h
  | vStr s => exact Except.noConfusion h
  | vBytes b => exact Except.noConfusion h

/-- C1, general part: on a template with as many placeholders as values,
`Expand` succeeds and returns the literal segments interleaved, in order,
with the encodings of the correspondingly-positioned values. -/
theorem Expand_weave : ∀ (t : Str) (vals : List SqlValue) (lits : List Str),
    countQ t = vals.length →
    List.Forall₂ (fun v l => literal v = Except.ok l) vals lits →
    Expand t vals = .ok (weave (splitQ t) lits) := by
  intro t
  induction t with
  | nil =>
    intro vals lits hc hf
    have hv : vals = [] := List.length_eq_zero.mp (by simpa [countQ] using hc.symm)
    subst hv
    cases hf
    rfl
  | cons c r ih =>
    intro vals lits hc hf
    by_cases hq : c = '?'
    · subst hq
      cases vals with
      | nil => simp [countQ_cons_q] at hc
      | cons v vs =>
        cases hf with
        | cons hvl hf' =>
          rename_i l ls
          have harit : countQ r = vs.length := by
            rw [countQ_cons_q, List.length_cons] at hc
            omega
          have hrec := ih vs ls harit hf'
          rw [Expand_q_cons, hvl, hrec]
          show Except.ok (l ++ weave (splitQ r) ls) = .ok (weave (splitQ ('?' :: r)) (l :: ls))
          have hsp : splitQ ('?' :: r) = [] :: splitQ r := by rw [splitQ, if_pos rfl]
          rw [hsp]
          rcases hspr : splitQ r with _ | ⟨s0, ss⟩
          · exact absurd hspr (splitQ_ne_nil r)
          · simp [weave]
    · rw [Expand_nq hq]
      have harit : countQ r = vals.length := by rwa [countQ_cons_ne hq] at hc
      have hrec := ih vals lits harit hf
      rcases hspr : splitQ r with _ | ⟨s0, ss⟩
      · exact absurd hspr (splitQ_ne_nil r)
      · have hsp : splitQ (c :: r) = (c :: s0) :: ss := by
          rw [splitQ, if_neg hq, hspr]
        rw [hspr] at hrec
        rw [hrec, hsp, weave_cons_cons]

/-- C2, general part, direction one: on an arity mismatch with encodable
values, `Expand` fails with the matching arity error. -/
theorem Expand_arity_err : ∀ (t : Str) (vals : List SqlValue),
    countQ t ≠ vals.length →
    (∀ v ∈ vals, ∃ l, literal v = Except.ok l) →
    Expand t vals =
      .error (if vals.length < countQ t then .arityMorePlaceholders else .arityMoreValues) := by
  intro t
  induction t with
  | nil =>
    intro vals hne henc
    cases vals with
    | nil => simp [countQ] at hne
    | cons v vs =>
      rw [Expand_nil_cons]
      rw [if_neg (by simp [countQ])]
  | cons c r ih =>
    intro vals hne henc
    by_cases hq : c = '?'
    · subst hq
      cases vals with
      | nil =>
        rw [Expand_q_nil, if_pos (by simp only [countQ_cons_q, List.length_nil]; omega)]
      | cons v vs =>
        obtain ⟨l, hl⟩ := henc v (List.mem_cons_self v vs)
        have harg : countQ r ≠ vs.length := by
          rw [countQ_cons_q, List.length_cons] at hne
          omega
        have hrec := ih vs harg (fun x hx => henc x (List.mem_cons_of_mem v hx))
        rw [Expand_q_cons, hl, hrec]
        show Except.error (if vs.length < countQ r then SqlErr.arityMorePlaceholders
            else SqlErr.arityMoreValues) = _
        rcases Nat.lt_or_ge vs.length (countQ r) with hlt | hge
        · rw [if_pos hlt, if_pos (by rw [countQ_cons_q, List.length_cons]; omega)]
        · rw [if_neg (Nat.not_lt.mpr hge), if_neg (by rw [countQ_cons_q, List.length_cons]; omega)]
    · rw [Expand_nq hq]
      have harg : countQ r ≠ vals.length := by rwa [countQ_cons_ne hq] at hne
      rw [ih vals harg henc]
      show Except.error (if vals.length < countQ r then SqlErr.arityMorePlaceholders
          else SqlErr.arityMoreValues) = _
      rw [countQ_cons_ne hq]

/-- C2, general part, direction two: a "more values than placeholders"
failure implies the scan ran to the end of the template, so every
placeholder that is present was successfully encoded first. -/
theorem Expand_moreValues : ∀ (t : Str) (vals : List SqlValue),
    Expand t vals = .error .arityMoreValues →
    countQ t < vals.length ∧ ∀ v ∈ vals.take (countQ t), ∃ l, literal v = Except.ok l := by
  intro t
  induction t with
  | nil =>
    intro vals h
    cases vals with
    | nil => rw [Expand_nil_nil] at h; exact Except.noConfusion h
    | cons v vs =>
      refine ⟨by simp [countQ], ?_⟩
      intro x hx
      simp [countQ] at hx
  | cons c r ih =>
    intro vals h
    by_cases hq : c = '?'
    · subst hq
      cases vals with
      | nil =>
        rw [Expand_q_nil] at h
        exact SqlErr.noConfusion (Except.error.inj h)
      | cons v vs =>
        rw [Expand_q_cons] at h
        cases hl : literal v with
        | error e =>
          rw [hl] at h
          have h2 : (Except.error e : Except SqlErr Str) = .error .arityMoreValues := h
          obtain ⟨tn, htn⟩ := literal_error_unsupported hl
          rw [htn] at h2
          exact SqlErr.noConfusion (Except.error.inj h2)
        | ok lit =>
          rw [hl] at h
          cases hE : Expand r vs with
          | error e2 =>
            rw [hE] at h
            have h2 : (Except.error e2 : Except SqlErr Str) = .error .arityMoreValues := h
            have he2 : e2 = .arityMoreValues := Except.error.inj h2
            subst he2
            obtain ⟨hlt, henc⟩ := ih vs hE
            constructor
            · rw [countQ_cons_q, List.length_cons]; omega
            · intro x hx
              rw [countQ_cons_q, Nat.add_comm 1 (countQ r), List.take_succ_cons] at hx
              rcases List.mem_cons.mp hx with hxv | hxt
              · exact hxv ▸ ⟨lit, hl⟩
              · exact henc x hxt
          | ok tail =>
            rw [hE] at h
            exact Except.noConfusion h
    · rw [Expand_nq hq] at h
      cases hE : Expand r vals with
      | error e2 =>
        rw [hE] at h
        have h2 : (Except.error e2 : Except SqlErr Str) = .error .arityMoreValues := h
        have he2 : e2 = .arityMoreValues := Except.error.inj h2
        subst he2
        obtain ⟨hlt, henc⟩ := ih vals hE
        rw [countQ_cons_ne hq]
        exact ⟨hlt, henc⟩
      | ok tail =>
        rw [hE] at h
        exact Except.noConfusion h

/-! ## The comment-marker pattern `--` across the Name pass -/

/-- Adjacent-pair scan for an occurrence of `--`. -/
def hasDD : Str → Bool
  | [] => false
  | [_] => false
  | a :: b :: t => if a = '-' ∧ b = '-' then true else hasDD (b :: t)

theorem hasDD_nil : hasDD [] = false := rfl

theorem hasDD_single (a : Char) : hasDD [a] = false := rfl

theorem hasDD_cons_cons (a b : Char) (t : Str) :
    hasDD (a :: b :: t) = if a = '-' ∧ b = '-' then true else hasDD (b :: t) := rfl

theorem containsStr_dd_eq_hasDD : ∀ z : Str, containsStr z ['-', '-'] = hasDD z := by
  intro z
  induction z with
  | nil => rfl
  | cons c r ih =>
    by_cases hpre : (['-', '-'] : Str).isPrefixOf (c :: r) = true
    · have h0 := findSub_of_isPrefixOf hpre
      have h1 : containsStr (c :: r) ['-', '-'] = true := by rw [containsStr, h0]; rfl
      rw [h1]
      rw [List.isPrefixOf_iff_prefix] at hpre
      rcases hpre with ⟨u, hu⟩
      obtain ⟨hc, hr⟩ := List.cons.inj hu
      rw [← hr, ← hc]
      show true = hasDD ('-' :: '-' :: u)
      rw [hasDD_cons_cons, if_pos ⟨rfl, rfl⟩]
    · have h1 : findSub (c :: r) ['-', '-'] = (findSub r ['-', '-']).map (· + 1) :=
        findSub_cons_of_not hpre
      have h2 : containsStr (c :: r) ['-', '-'] = containsStr r ['-', '-'] := by
        rw [containsStr, containsStr, h1]
        cases findSub r ['-', '-'] <;> rfl
      rw [h2, ih]
      cases r with
      | nil => rfl
      | cons b u =>
        have hcb : ¬(c = '-' ∧ b = '-') := by
          rintro ⟨hc, hb⟩
          apply hpre
          rw [hc, hb]
          simp [List.isPrefixOf]
        rw [hasDD_cons_cons, if_neg hcb]

theorem hasDD_sub {s u : Str} (hsub : ∃ l r : Str, s = l ++ u ++ r)
    (h : hasDD s = false) : hasDD u = false := by
  cases hx : hasDD u with
  | false => rfl
  | true =>
    rcases containsStr_iff.mp (by rw [containsStr_dd_eq_hasDD]; exact hx) with ⟨l2, r2, hu⟩
    rcases hsub with ⟨l, r, rfl⟩
    have hc : containsStr (l ++ u ++ r) ['-', '-'] = true := by
      apply containsStr_iff.mpr
      exact ⟨l ++ l2, r2 ++ r, by rw [hu]; simp⟩
    rw [containsStr_dd_eq_hasDD] at hc
    rw [hc] at h
    exact Bool.noConfusion h

theorem hasDD_take {i : Nat} {s : Str} (h : hasDD s = false) : hasDD (s.take i) = false :=
  hasDD_sub ⟨[], s.drop i, by simp⟩ h

theorem hasDD_drop {i : Nat} {s : Str} (h : hasDD s = false) : hasDD (s.drop i) = false :=
  hasDD_sub ⟨s.take i, [], by simp⟩ h

theorem hasDD_of_not_mem {z : Str} (h : '-' ∉ z) : hasDD z = false := by
  cases hx : hasDD z with
  | false => rfl
  | true =>
    rcases containsStr_iff.mp (by rw [containsStr_dd_eq_hasDD]; exact hx) with ⟨l, r, hz⟩
    exact absurd (by rw [hz]; simp : '-' ∈ z) h

/-- Up to the first hit of `findSub`, the text is occurrence-free. -/
theorem findSub_first_dd : ∀ (s : Str) {i : Nat}, findSub s ['-', '-'] = some i →
    hasDD (s.take i) = false := by
  intro s
  induction s with
  | nil =>
    intro i h
    rw [findSub_nil (by simp)] at h
    exact Option.noConfusion h
  | cons c r ih =>
    intro i h
    by_cases hpre : (['-', '-'] : Str).isPrefixOf (c :: r) = true
    · rw [findSub_of_isPrefixOf hpre] at h
      have h0 : i = 0 := (Option.some.inj h).symm
      subst h0
      rfl
    · rw [findSub_cons_of_not hpre] at h
      rcases Option.map_eq_some'.mp h with ⟨j, hj, hij⟩
      subst hij
      rw [List.take_succ_cons]
      have ht := ih hj
      cases htk : r.take j with
      | nil => exact hasDD_single c
      | cons b u =>
        rw [htk] at ht
        rw [hasDD_cons_cons]
        by_cases hc2 : c = '-' ∧ b = '-'
        · obtain ⟨r2, hr2⟩ : ∃ r2, r = b :: r2 := by
            cases r with
            | nil => rw [List.take_nil] at htk; exact absurd htk (by simp)
            | cons b0 r2 =>
              cases j with
              | zero => rw [List.take_zero] at htk; exact absurd htk (by simp)
              | succ j2 =>
                rw [List.take_succ_cons] at htk
                exact ⟨r2, by rw [(List.cons.inj htk).1]⟩
          exfalso
          apply hpre
          rw [hr2, hc2.1, hc2.2]
          simp [List.isPrefixOf]
        · rw [if_neg hc2]
          exact ht

theorem hasDD_cons_of_ne {a : Char} (ha : a ≠ '-') (z : Str) : hasDD (a :: z) = hasDD z := by
  cases z with
  | nil => rfl
  | cons b t =>
    rw [hasDD_cons_cons, if_neg (by rintro ⟨h1, _⟩; exact ha h1)]

theorem hasDD_append_of : ∀ (x y : Str), hasDD x = false → hasDD y = false →
    (∀ a ∈ x.getLast?, ∀ b ∈ y.head?, ¬(a = '-' ∧ b = '-')) →
    hasDD (x ++ y) = false := by
  intro x
  induction x with
  | nil => intro y _ hy _; exact hy
  | cons a t ih =>
    intro y hx hy hb
    cases t with
    | nil =>
      cases y with
      | nil => exact hasDD_single a
      | cons b u =>
        have hab := hb a (by simp) b (by simp)
        rw [List.cons_append, List.nil_append, hasDD_cons_cons, if_neg hab]
        exact hy
    | cons a2 t2 =>
      simp only [List.cons_append]
      rw [hasDD_cons_cons] at hx ⊢
      by_cases hc : a = '-' ∧ a2 = '-'
      · rw [if_pos hc] at hx
        exact absurd hx (by simp)
      · rw [if_neg hc] at hx
        rw [if_neg hc]
        have hb' : ∀ q ∈ (a2 :: t2).getLast?, ∀ b ∈ y.head?, ¬(q = '-' ∧ b = '-') := by
          intro q hq b hbm
          exact hb q (by rw [List.getLast?_cons_cons]; exact hq) b hbm
        have := ih y hx hy hb'
        simpa using this

theorem mem_getLast?_append {x y : Str} {a : Char} (hy : y ≠ [])
    (ha : a ∈ (x ++ y).getLast?) : a ∈ y := by
  rw [List.getLast?_append] at ha
  cases hgl : y.getLast? with
  | none =>
    cases y with
    | nil => exact absurd rfl hy
    | cons b u =>
      have : (b :: u).getLast?.isSome = true := by
        rw [List.getLast?_eq_getLast (b :: u) (by simp)]
        rfl
      rw [hgl] at this
      exact Bool.noConfusion this
  | some c =>
    rw [hgl] at ha
    have hac : c = a := by
      have h2 : (Option.some c).or x.getLast? = some c := rfl
      rw [h2] at ha
      simpa using ha
    exact hac ▸ List.mem_of_getLast?_eq_some hgl

theorem lowerChar_underscore : lowerChar '_' = '_' := by decide

/-- The `--` pass itself leaves no `--` behind: each occurrence visible to
the lower-cased scan becomes `__`, and the spliced boundaries cannot
recreate the pattern. -/
theorem hasDD_elim_F : ∀ (f : Nat) (t : Str), t.length ≤ f →
    hasDD (toLowerStr (replaceCIF f t ['-', '-'] ['_', '_'])) = false := by
  intro f
  induction f with
  | zero =>
    intro t ht
    have h0 : t = [] := List.length_eq_zero.mp (Nat.le_zero.mp ht)
    subst h0
    rfl
  | succ f ih =>
    intro t ht
    have hld : toLowerStr (['-', '-'] : Str) = ['-', '-'] := by decide
    cases hfind : findSub (toLowerStr t) (toLowerStr (['-', '-'] : Str)) with
    | none =>
      rw [replaceCIF_succ_none hfind]
      rw [hld] at hfind
      have hcf : containsStr (toLowerStr t) ['-', '-'] = false := by
        rw [containsStr, hfind]; rfl
      rw [containsStr_dd_eq_hasDD] at hcf
      exact hcf
    | some i =>
      rw [replaceCIF_succ_some hfind]
      rw [hld] at hfind
      have htl : 0 < t.length := by
        have h1 := findSub_ne_nil (by simp : (['-', '-'] : Str) ≠ []) hfind
        have h2 : 0 < (toLowerStr t).length := List.length_pos.mpr h1
        rwa [length_toLowerStr] at h2
      have e1 : toLowerStr ((t.take i ++ ['_', '_']) ++
            replaceCIF f (t.drop (i + (['-', '-'] : Str).length)) ['-', '-'] ['_', '_']) =
          (List.take i (toLowerStr t) ++ ['_', '_']) ++
            toLowerStr (replaceCIF f (t.drop (i + (['-', '-'] : Str).length))
              ['-', '-'] ['_', '_']) := by
        simp [toLowerStr, List.map_append, lowerChar_underscore]
      rw [e1]
      apply hasDD_append_of
      · apply hasDD_append_of
        · exact findSub_first_dd (toLowerStr t) hfind
        · decide
        · intro a ha b hb
          have hbu : '_' = b := by simpa using hb
          rintro ⟨_, h2⟩
          rw [← hbu] at h2
          exact absurd h2 (by decide)
      · apply ih
        rw [List.length_drop]
        have hdl : (['-', '-'] : Str).length = 2 := rfl
        omega
      · intro a ha b hb
        have hau : a = '_' := by
          have := mem_getLast?_append (by simp : (['_', '_'] : Str) ≠ []) ha
          simpa using this
        rintro ⟨h1, _⟩
        rw [hau] at h1
        exact absurd h1 (by decide)

/-- A pass whose replacement text contains no `-` (after lower-casing)
cannot introduce `--` into a text that had none. -/
theorem hasDD_keep_F : ∀ (f : Nat) (t p r : Str), t.length ≤ f → p ≠ [] → r ≠ [] →
    '-' ∉ toLowerStr r → hasDD (toLowerStr t) = false →
    hasDD (toLowerStr (replaceCIF f t p r)) = false := by
  intro f
  induction f with
  | zero =>
    intro t p r ht _ _ _ h
    have h0 : t = [] := List.length_eq_zero.mp (Nat.le_zero.mp ht)
    subst h0
    exact h
  | succ f ih =>
    intro t p r ht hp hr hrm h
    cases hfind : findSub (toLowerStr t) (toLowerStr p) with
    | none =>
      rw [replaceCIF_succ_none hfind]
      exact h
    | some i =>
      rw [replaceCIF_succ_some hfind]
      have hpl : 0 < p.length := List.length_pos.mpr hp
      have htl : 0 < t.length := length_pos_of_findSub_lower hp hfind
      have e1 : toLowerStr ((t.take i ++ r) ++ replaceCIF f (t.drop (i + p.length)) p r) =
          (List.take i (toLowerStr t) ++ toLowerStr r) ++
            toLowerStr (replaceCIF f (t.drop (i + p.length)) p r) := by
        simp [toLowerStr, List.map_append]
      rw [e1]
      have hrn : toLowerStr r ≠ [] := toLowerStr_ne_nil hr
      apply hasDD_append_of
      · apply hasDD_append_of
        · exact hasDD_take h
        · exact hasDD_of_not_mem hrm
        · intro a ha b hb
          rintro ⟨_, h2⟩
          exact hrm (h2 ▸ List.mem_of_mem_head? hb)
      · apply ih _ p r _ hp hr hrm
        · have e2 : toLowerStr (t.drop (i + p.length)) =
              List.drop (i + p.length) (toLowerStr t) := by
            simp [toLowerStr, List.map_drop]
          rw [e2]
          exact hasDD_drop h
        · rw [List.length_drop]
          omega
      · intro a ha b hb
        rintro ⟨h1, _⟩
        have haa : a ∈ toLowerStr r := mem_getLast?_append hrn ha
        exact hrm (h1 ▸ haa)

theorem hasDD_elim (t : Str) :
    hasDD (toLowerStr (replaceCaseInsensitive t ['-', '-'] ['_', '_'])) = false := by
  rw [replaceCaseInsensitive, if_neg (by decide)]
  exact hasDD_elim_F t.length t (Nat.le_refl _)

theorem hasDD_keep (t p r : Str) (hp : p ≠ []) (hr : r ≠ []) (hrm : '-' ∉ toLowerStr r)
    (h : hasDD (toLowerStr t) = false) :
    hasDD (toLowerStr (replaceCaseInsensitive t p r)) = false := by
  rw [replaceCaseInsensitive, if_neg (by simp [isEmpty_false_of_ne hp])]
  exact hasDD_keep_F t.length t p r (Nat.le_refl _) hp hr hrm h

theorem applyPatterns_cons (s p r : Str) (rest : List (Str × Str)) :
    applyPatterns s ((p, r) :: rest) =
      applyPatterns (if containsStr (toLowerStr s) p
        then replaceCaseInsensitive s p r else s) rest := rfl

theorem hasDD_applyPatterns_keep : ∀ (table : List (Str × Str)) (t : Str),
    (∀ pr ∈ table, pr.1 ≠ [] ∧ pr.2 ≠ [] ∧ '-' ∉ toLowerStr pr.2) →
    hasDD (toLowerStr t) = false →
    hasDD (toLowerStr (applyPatterns t table)) = false := by
  intro table
  induction table with
  | nil => intro t _ h; exact h
  | cons pr rest ih =>
    intro t hcond h
    obtain ⟨hp, hr, hrm⟩ := hcond pr (List.mem_cons_self pr rest)
    obtain ⟨p, r⟩ := pr
    rw [applyPatterns_cons]
    apply ih _ (fun q hq => hcond q (List.mem_cons_of_mem (p, r) hq))
    by_cases hc : containsStr (toLowerStr t) p = true
    · rw [if_pos hc]
      exact hasDD_keep t p r hp hr hrm h
    · rw [if_neg hc]
      exact h

/-- Any pattern pass that reaches the `("--", "__")` entry and afterwards
only applies replacements free of `-` produces a text whose lower-casing
has no `--`. -/
theorem hasDD_pass_split (t : Str) (pre post : List (Str × Str))
    (hpost : ∀ pr ∈ post, pr.1 ≠ [] ∧ pr.2 ≠ [] ∧ '-' ∉ toLowerStr pr.2) :
    hasDD (toLowerStr (applyPatterns t (pre ++ ((strL "--", strL "__") :: post)))) = false := by
  have hsplit : applyPatterns t (pre ++ ((strL "--", strL "__") :: post)) =
      applyPatterns (applyPatterns t pre) ((strL "--", strL "__") :: post) := by
    simp [applyPatterns, List.foldl_append]
  rw [hsplit, applyPatterns_cons]
  apply hasDD_applyPatterns_keep post _ hpost
  by_cases hc : containsStr (toLowerStr (applyPatterns t pre)) (strL "--") = true
  · rw [if_pos hc]
    have e1 : (strL "--" : Str) = ['-', '-'] := by decide
    have e2 : (strL "__" : Str) = ['_', '_'] := by decide
    rw [e1, e2]
    exact hasDD_elim (applyPatterns t pre)
  · rw [if_neg hc]
    have hcf : containsStr (toLowerStr (applyPatterns t pre)) (strL "--") = false := by
      cases hcc : containsStr (toLowerStr (applyPatterns t pre)) (strL "--") with
      | false => rfl
      | true => exact absurd hcc hc
    have e1 : (strL "--" : Str) = ['-', '-'] := by decide
    rw [e1] at hcf
    rw [← containsStr_dd_eq_hasDD]
    exact hcf

/-! ## Specification-side form of the case-insensitive neutralizer -/

/-- Left-to-right non-overlapping match positions in a scan buffer that was
lower-cased once, reported as absolute indices (specification side). -/
def rciScanF (fuel : Nat) (sL pL : Str) : List Nat :=
  match fuel with
  | 0 => []
  | Nat.succ f =>
    match findSub sL pL with
    | none => []
    | some i => i :: (rciScanF f (sL.drop (i + pL.length)) pL).map (· + (i + pL.length))

/-- Emit the untouched segments (original casing) interleaved with the
replacement text, from a list of absolute match positions. -/
def rciEmit (s new : Str) (plen : Nat) : List Nat → Nat → Str
  | [], pos => s.drop pos
  | i :: rest, pos => (s.drop pos).take (i - pos) ++ new ++ rciEmit s new plen rest (i + plen)

/-- `replaceCaseInsensitive` as the spec words it: lower-case text and
pattern once, for matching only; scan left to right for non-overlapping
occurrences; for every occurrence emit the untouched preceding segment with
its original casing followed by the replacement text. -/
def rciSpec (s old new : Str) : Str :=
  if old.isEmpty then s
  else rciEmit s new old.length (rciScanF s.length (toLowerStr s) (toLowerStr old)) 0

theorem rciScanF_succ_none {sL pL : Str} {f : Nat} (h : findSub sL pL = none) :
    rciScanF (f + 1) sL pL = [] := by
  rw [rciScanF, h]

theorem rciScanF_succ_some {sL pL : Str} {f i : Nat} (h : findSub sL pL = some i) :
    rciScanF (f + 1) sL pL =
      i :: (rciScanF f (sL.drop (i + pL.length)) pL).map (· + (i + pL.length)) := by
  rw [rciScanF, h]

theorem rciEmit_nil (s new : Str) (plen pos : Nat) :
    rciEmit s new plen [] pos = s.drop pos := rfl

theorem rciEmit_cons (s new : Str) (plen : Nat) (i pos : Nat) (rest : List Nat) :
    rciEmit s new plen (i :: rest) pos =
      (s.drop pos).take (i - pos) ++ new ++ rciEmit s new plen rest (i + plen) := rfl

theorem rciEmit_shift (new : Str) (l : Nat) : ∀ (ps : List Nat) (k pos : Nat) (s : Str),
    rciEmit s new l (ps.map (· + k)) (pos + k) = rciEmit (s.drop k) new l ps pos := by
  intro ps
  induction ps with
  | nil =>
    intro k pos s
    rw [List.map_nil, rciEmit_nil, rciEmit_nil, List.drop_drop]
    rw [Nat.add_comm pos k]
  | cons i rest ih =>
    intro k pos s
    rw [List.map_cons, rciEmit_cons, rciEmit_cons, List.drop_drop]
    rw [show pos + k = k + pos from Nat.add_comm pos k,
      show i + k - (k + pos) = i - pos from by omega,
      show i + k + l = (i + l) + k from by omega,
      ih k (i + l) s]

theorem replaceCIF_eq_spec {old : Str} (hp : old ≠ []) : ∀ (f : Nat) (s new : Str),
    s.length ≤ f →
    replaceCIF f s old new =
      rciEmit s new old.length (rciScanF f (toLowerStr s) (toLowerStr old)) 0 := by
  intro f
  induction f with
  | zero =>
    intro s new hf
    have h0 : s = [] := List.length_eq_zero.mp (Nat.le_zero.mp hf)
    subst h0
    rfl
  | succ f ih =>
    intro s new hf
    cases hfind : findSub (toLowerStr s) (toLowerStr old) with
    | none =>
      rw [replaceCIF_succ_none hfind, rciScanF_succ_none hfind, rciEmit_nil, List.drop_zero]
    | some i =>
      have hlen : 0 < s.length := length_pos_of_findSub_lower hp hfind
      have hop : 0 < old.length := List.length_pos.mpr hp
      rw [replaceCIF_succ_some hfind, rciScanF_succ_some hfind, length_toLowerStr,
        rciEmit_cons]
      have e2 : (toLowerStr s).drop (i + old.length) = toLowerStr (s.drop (i + old.length)) := by
        simp [toLowerStr, List.map_drop]
      rw [e2]
      have e3 : (s.drop 0).take (i - 0) = s.take i := by simp
      rw [e3]
      have e5 := rciEmit_shift new old.length
        (rciScanF f (toLowerStr (s.drop (i + old.length))) (toLowerStr old))
        (i + old.length) 0 s
      rw [Nat.zero_add] at e5
      rw [e5, ih (s.drop (i + old.length)) new (by rw [List.length_drop]; omega)]

theorem replaceCI_eq_rciSpec (s old new : Str) :
    replaceCaseInsensitive s old new = rciSpec s old new := by
  by_cases hp : old.isEmpty = true
  · rw [replaceCaseInsensitive, rciSpec, if_pos hp, if_pos hp]
  · rw [replaceCaseInsensitive, rciSpec, if_neg hp, if_neg hp]
    have hne : old ≠ [] := by
      intro hh
      exact hp (by rw [hh]; rfl)
    exact replaceCIF_eq_spec hne s.length s new (Nat.le_refl _)

/-! ## Byte-level model of the Go index arithmetic

The Go `replaceCaseInsensitive` computes `strings.Index` positions on the
*bytes* of `sLower := strings.ToLower(s)` and slices the *bytes* of `s`
with them, advancing `lastEnd` by `len(old)`.  When every rune's lowering
preserves its UTF-8 byte length the two buffers stay aligned and the
code-point model above is exact; when a fold changes a byte length
(U+0130 lowers to the one-byte `i`, U+023A lowers to the three-byte
U+2C65) the indices land inside or past the wrong runes of `s`.  The
definitions below replay the byte arithmetic literally over `List Nat`
byte strings so that the misalignment can be exhibited. -/

/-- UTF-8 encoding of one code point, as its byte values. -/
def utf8EncChar (c : Char) : List Nat :=
  let n := c.toNat
  if n < 0x80 then [n]
  else if n < 0x800 then [0xC0 + n / 0x40, 0x80 + n % 0x40]
  else if n < 0x10000 then [0xE0 + n / 0x1000, 0x80 + (n / 0x40) % 0x40, 0x80 + n % 0x40]
  else [0xF0 + n / 0x40000, 0x80 + (n / 0x1000) % 0x40, 0x80 + (n / 0x40) % 0x40, 0x80 + n % 0x40]

/-- UTF-8 encoding of a string, as its byte values (what a Go `string`
holds and what `len`, `strings.Index` and slicing operate on). -/
def utf8Bytes : Str → List Nat
  | [] => []
  | c :: r => utf8EncChar c ++ utf8Bytes r

/-- Go `strings.Index` on byte strings. -/
def findSubB (s p : List Nat) : Option Nat :=
  if p.isPrefixOf s then some 0
  else
    match s with
    | [] => none
    | _ :: t => (findSubB t p).map (· + 1)

/-- The loop of `replaceCaseInsensitive` (sqlhelper.go:490-509) replayed
on byte strings: `index` is found in `sLower[lastEnd:]`, the slices
`s[lastEnd : lastEnd+index]` and the advance by `oldLen = len(old)` are
taken on `s`, exactly as the Go code writes them.  Where Go would panic
on an out-of-range slice, `take`/`drop` clip instead; the inputs evaluated
below stay in range, so the clipping is never exercised there. -/
def goRCIBytesF : Nat → Nat → List Nat → List Nat → List Nat → Nat → List Nat → List Nat
  | 0, lastEnd, s, _, _, _, _ => s.drop lastEnd
  | Nat.succ f, lastEnd, s, sLower, oldLower, oldLen, new =>
    match findSubB (sLower.drop lastEnd) oldLower with
    | none => s.drop lastEnd
    | some index =>
      (s.drop lastEnd).take index ++ new ++
        goRCIBytesF f (lastEnd + index + oldLen) s sLower oldLower oldLen new

/-- `replaceCaseInsensitive` on raw bytes.  `s` is the UTF-8 encoding of
the original text and `sLower` the encoding of `strings.ToLower(s)`,
supplied as an input because `ToLower`'s full Unicode fold is library
behaviour outside this development (for the evaluated inputs:
`ToLower("İİ--") = "ii--"`, since the simple lowercase of U+0130 is
U+0069).  `oldLower` is the lowered pattern and `oldLen` its byte
length; the fuel `sLower.length + 1` exceeds the number of iterations
the strictly advancing `lastEnd` allows. -/
def goReplaceCaseInsensitiveBytes (s sLower oldLower : List Nat) (oldLen : Nat)
    (new : List Nat) : List Nat :=
  goRCIBytesF (sLower.length + 1) 0 s sLower oldLower oldLen new

/-! ## Specification-side form of the type inferrer -/

/-- `InferType` as the claim words it, first match wins: empty, then the
ID charset test (length in characters; for an all-ASCII allow-listed string
the byte and character lengths coincide), then the long-or-multiline test
(the spec's "length" read as the source's `len`, i.e. UTF-8 bytes), then
CJK codepoints or curated naming substrings, else Generic. -/
def inferTypeSpec (value : Str) : ParamType :=
  if value = [] then .generic
  else if value.length ≤ 100 && value.all allowedIDChar then .id
  else if 500 < utf8Len value || containsStr value (strL "\n") ||
      containsStr value (strL "\r") then .description
  else if value.any isCJK || namePatterns.any (fun p => containsStr value p) then .name
  else .generic

theorem charBytes_of_allowed {c : Char} (h : allowedIDChar c = true) : charBytes c = 1 := by
  unfold allowedIDChar at h
  simp only [Bool.or_eq_true, Bool.and_eq_true, decide_eq_true_eq] at h
  have hlt : c.toNat < 0x80 := by
    rcases h with (((⟨h1, h2⟩ | ⟨h1, h2⟩) | ⟨h1, h2⟩) | h1) | h1 <;> omega
  unfold charBytes
  rw [if_pos hlt]

theorem utf8Len_eq_length_of_ascii {s : Str} (h : s.all allowedIDChar = true) :
    utf8Len s = s.length := by
  induction s with
  | nil => rfl
  | cons c r ih =>
    rw [List.all_cons, Bool.and_eq_true] at h
    show charBytes c + utf8Len r = r.length + 1
    rw [ih h.2, charBytes_of_allowed h.1]
    omega

theorem inferType_eq_spec (s : Str) : TypeInferrer.InferType s = inferTypeSpec s := by
  by_cases h0 : s = []
  · subst h0; rfl
  · rw [TypeInferrer.InferType, inferTypeSpec,
      if_neg (by simp [isEmpty_false_of_ne h0]), if_neg h0]
    have hcond : (utf8Len s ≤ 100 && s.all allowedIDChar) =
        (s.length ≤ 100 && s.all allowedIDChar) := by
      cases hall : s.all allowedIDChar with
      | false => simp
      | true => rw [utf8Len_eq_length_of_ascii hall]
    rw [hcond]

/-! ## `sanitizeStringInput` can exceed its own truncation bound -/

theorem applyPatterns_nil (s : Str) : applyPatterns s [] = s := rfl

theorem applyPatterns_skip {s p r : Str} {rest : List (Str × Str)}
    (h : containsStr (toLowerStr s) p = false) :
    applyPatterns s ((p, r) :: rest) = applyPatterns s rest := by
  rw [applyPatterns_cons, if_neg (by simp [h])]

theorem applyPatterns_hit {s p r : Str} {rest : List (Str × Str)}
    (h : containsStr (toLowerStr s) p = true) :
    applyPatterns s ((p, r) :: rest) = applyPatterns (replaceCaseInsensitive s p r) rest := by
  rw [applyPatterns_cons, if_pos h]

theorem not_mem_rep_append {c a : Char} {n : Nat} {tail : Str}
    (h1 : c ≠ a) (h2 : c ∉ tail) : c ∉ List.replicate n a ++ tail := by
  intro h
  rcases List.mem_append.mp h with hl | hr
  · exact h1 (List.eq_of_mem_replicate hl)
  · exact h2 hr

/-- A 65535-byte input that `sanitizeStringInput` lengthens past the
truncation bound: 65524 copies of `a` followed by one `xp_cmdshell`. -/
def c7Input : Str := List.replicate 65524 'a' ++ strL "xp_cmdshell"

theorem c7Input_lower : toLowerStr c7Input = c7Input := by
  rw [c7Input, toLowerStr, List.map_append, List.map_replicate,
    show lowerChar 'a' = 'a' from by decide,
    show List.map lowerChar (strL "xp_cmdshell") = strL "xp_cmdshell" from by decide]

theorem c7Input_utf8Len : utf8Len c7Input = 65535 := by
  rw [c7Input, utf8Len_append, utf8Len_replicate,
    show charBytes 'a' = 1 from by decide,
    show utf8Len (strL "xp_cmdshell") = 11 from by decide]

theorem c7_skip (p : Str) (c : Char) (hc : c ∈ p) (h1 : c ≠ 'a')
    (h2 : c ∉ strL "xp_cmdshell") :
    containsStr (toLowerStr c7Input) p = false := by
  rw [c7Input_lower, c7Input]
  exact containsStr_false_of_absent hc (not_mem_rep_append h1 h2)

theorem c7_findSub :
    findSub (toLowerStr c7Input) (toLowerStr (strL "xp_cmdshell")) = some 65524 := by
  rw [c7Input_lower,
    show toLowerStr (strL "xp_cmdshell") = strL "xp_cmdshell" from by decide, c7Input]
  rw [findSub_replicate (show (strL "xp_cmdshell").head? = some 'x' from by decide)
    (by decide) 65524 (strL "xp_cmdshell")]
  rw [show findSub (strL "xp_cmdshell") (strL "xp_cmdshell") = some 0 from by decide]
  simp

theorem c7_contains_xp : containsStr (toLowerStr c7Input) (strL "xp_cmdshell") = true := by
  have h := c7_findSub
  rw [show toLowerStr (strL "xp_cmdshell") = strL "xp_cmdshell" from by decide] at h
  rw [containsStr, h]
  rfl

theorem c7_replace :
    replaceCaseInsensitive c7Input (strL "xp_cmdshell") (strL "xp_cmd_shell") =
      List.replicate 65524 'a' ++ strL "xp_cmd_shell" := by
  have ht : c7Input.take 65524 = List.replicate 65524 'a' := by
    simp only [c7Input]
    exact List.take_left' (by rw [List.length_replicate])
  have hd : c7Input.drop (65524 + (strL "xp_cmdshell").length) = [] := by
    apply List.drop_eq_nil_of_le
    simp only [c7Input, List.length_append, List.length_replicate]
    exact Nat.le_refl _
  have h0 : replaceCaseInsensitive c7Input (strL "xp_cmdshell") (strL "xp_cmd_shell") =
      c7Input.take 65524 ++ strL "xp_cmd_shell" ++
        replaceCaseInsensitive (c7Input.drop (65524 + (strL "xp_cmdshell").length))
          (strL "xp_cmdshell") (strL "xp_cmd_shell") :=
    replaceCI_of_some (by decide) c7_findSub
  rw [ht, hd] at h0
  rw [h0,
    show replaceCaseInsensitive [] (strL "xp_cmdshell") (strL "xp_cmd_shell") = []
      from by decide,
    List.append_nil]

theorem c7_lower2 : toLowerStr (List.replicate 65524 'a' ++ strL "xp_cmd_shell") =
    List.replicate 65524 'a' ++ strL "xp_cmd_shell" := by
  rw [toLowerStr, List.map_append, List.map_replicate,
    show lowerChar 'a' = 'a' from by decide,
    show List.map lowerChar (strL "xp_cmd_shell") = strL "xp_cmd_shell" from by decide]

theorem c7_sanitize : sanitizeStringInput c7Input =
    List.replicate 65524 'a' ++ strL "xp_cmd_shell" := by
  rw [sanitizeStringInput, truncCap_of_le (le_of_eq c7Input_utf8Len)]
  rw [sanitizePatterns]
  rw [applyPatterns_skip (c7_skip (strL "union select") 'u' (by decide) (by decide) (by decide)),
    applyPatterns_skip
      (c7_skip (strL "union all select") 'u' (by decide) (by decide) (by decide)),
    applyPatterns_skip (c7_skip (strL "' or '1'='1") '\'' (by decide) (by decide) (by decide)),
    applyPatterns_skip (c7_skip (strL "' or 1=1") '\'' (by decide) (by decide) (by decide)),
    applyPatterns_skip (c7_skip (strL "'; drop table") '\'' (by decide) (by decide) (by decide)),
    applyPatterns_skip
      (c7_skip (strL "'; delete from") '\'' (by decide) (by decide) (by decide)),
    applyPatterns_skip (c7_skip (strL "'; update ") '\'' (by decide) (by decide) (by decide)),
    applyPatterns_skip
      (c7_skip (strL "'; insert into") '\'' (by decide) (by decide) (by decide)),
    applyPatterns_skip (c7_skip (strL "/*") '/' (by decide) (by decide) (by decide)),
    applyPatterns_skip (c7_skip (strL "*/") '/' (by decide) (by decide) (by decide)),
    applyPatterns_skip (c7_skip (strL "--") '-' (by decide) (by decide) (by decide)),
    applyPatterns_hit c7_contains_xp, c7_replace]
  rw [applyPatterns_skip (show containsStr
      (toLowerStr (List.replicate 65524 'a' ++ strL "xp_cmd_shell"))
      (strL "sp_executesql") = false from by
    rw [c7_lower2]
    exact containsStr_false_of_absent (show 'u' ∈ strL "sp_executesql" from by decide)
      (not_mem_rep_append (by decide) (by decide)))]
  rw [applyPatterns_nil]

theorem c7_out_utf8Len : utf8Len (sanitizeStringInput c7Input) = 65536 := by
  rw [c7_sanitize, utf8Len_append, utf8Len_replicate,
    show charBytes 'a' = 1 from by decide,
    show utf8Len (strL "xp_cmd_shell") = 12 from by decide]

/-! ## Claim theorems -/

/-- C1: for every template containing exactly `k` placeholder (`?`)
occurrences and every sequence of exactly `k` supplied values each of which
has a literal encoding, `Expand` succeeds; each placeholder is replaced, in
left-to-right order, by the literal encoding of the correspondingly
positioned value, and all literal text between placeholders (the `splitQ`
segments) is preserved verbatim, as expressed by `weave`.  In particular
`Expand "SELECT * FROM users WHERE id = ?" [123]` returns
`"SELECT * FROM users WHERE id = 123"`. -/
theorem spec_c1_expand_ok :
    (∀ (t : Str) (vals : List SqlValue) (lits : List Str),
        countQ t = vals.length →
        List.Forall₂ (fun v l => literal v = Except.ok l) vals lits →
        Expand t vals = .ok (weave (splitQ t) lits)) ∧
    Expand (strL "SELECT * FROM users WHERE id = ?") [.vInt 123] =
      .ok (strL "SELECT * FROM users WHERE id = 123") :=
  ⟨Expand_weave, by decide⟩

theorem spec_c1_expand_ok_witness :
    Expand (strL "VALUES (?)") [SqlValue.vNull] =
      .ok (weave (splitQ (strL "VALUES (?)")) [strL "NULL"]) :=
  spec_c1_expand_ok.1 (strL "VALUES (?)") [SqlValue.vNull] [strL "NULL"] (by decide)
    (List.Forall₂.cons rfl List.Forall₂.nil)

/-- C2: on an arity mismatch with encodable values, `Expand` fails with the
matching arity error (the model's `Except` carries no partial text, as the
Go function returns `""` alongside the error): a placeholder with no
remaining value fails immediately with the "more placeholders than values"
error, while the "more values than placeholders" error is raised only after
the full scan, so that error implies every placeholder actually present was
successfully encoded first. -/
theorem spec_c2_arity_errors :
    (∀ (t : Str) (vals : List SqlValue),
        countQ t ≠ vals.length →
        (∀ v ∈ vals, ∃ l, literal v = Except.ok l) →
        Expand t vals = .error (if vals.length < countQ t
          then SqlErr.arityMorePlaceholders else SqlErr.arityMoreValues)) ∧
    (∀ (t : Str) (vals : List SqlValue),
        Expand t vals = .error .arityMoreValues →
        countQ t < vals.length ∧
          ∀ v ∈ vals.take (countQ t), ∃ l, literal v = Except.ok l) :=
  ⟨Expand_arity_err, Expand_moreValues⟩

theorem spec_c2_arity_errors_witness :
    Expand (strL "id = ?") [] = .error SqlErr.arityMorePlaceholders ∧
    Expand (strL "id") [SqlValue.vInt 7] = .error SqlErr.arityMoreValues := by
  constructor
  · exact (spec_c2_arity_errors.1 (strL "id = ?") [] (by decide)
      (by intro v hv; cases hv)).trans (by decide)
  · refine (spec_c2_arity_errors.1 (strL "id") [SqlValue.vInt 7] (by decide) ?_).trans
      (by decide)
    intro v hv
    have hv' := List.mem_singleton.mp hv
    subst hv'
    exact ⟨intLit 7, rfl⟩

/-- C3: for every string value, `literal` infers the `ParamType` with the
`TypeInferrer`, fetches the matching validator from the registry
(`ProcessString` composes `GetValidator` with `Validate`), and escapes the
validated result with `quoteString`, yielding a single-quoted literal.  In
particular `literal "'; DROP TABLE users;--"` returns
`"'''; drop_table users;__'"`. -/
theorem spec_c3_literal_pipeline :
    (∀ s : Str, literal (.vStr s) =
        .ok (quoteString (TypeAwareProcessor.ProcessString s (TypeInferrer.InferType s)))) ∧
    literal (.vStr (strL "'; DROP TABLE users;--")) =
      .ok (strL "'''; drop_table users;__'") :=
  ⟨fun s => rfl, by decide⟩

/-- C4: `quoteString` applies its eight substitutions in exactly the
source's order and wraps the result in single quotes; because the backslash
pass runs first and each later pass never rescans its own replacement text,
the sequential passes equal one character-wise escape (`escBody`), so a
single application suffices and re-escaping its own output is never needed.
In particular `quoteString "hello's world"` returns `"'hello''s world'"`. -/
theorem spec_c4_quoteString_charwise :
    (∀ s : Str, quoteString s = '\'' :: escBody s ++ ['\'']) ∧
    quoteString (strL "hello's world") = strL "'hello''s world'" :=
  ⟨quoteString_charwise, by decide⟩

/-- C5: `InferType` classifies by the claim's exact first-match-wins
decision order — empty, ID charset (length at most 100), long or multiline
(length over 500 bytes, `len` in the source being UTF-8 byte length, or an
embedded line feed or carriage return), CJK codepoints or curated naming
substrings, else Generic — as the equality with the spec-side
`inferTypeSpec` shows.  In particular `InferType "project_123_abc" = ID`
and `InferType "北京朝阳区项目" = Name`. -/
theorem spec_c5_inferType :
    (∀ s : Str, TypeInferrer.InferType s = inferTypeSpec s) ∧
    TypeInferrer.InferType (strL "project_123_abc") = ParamType.id ∧
    TypeInferrer.InferType (strL "北京朝阳区项目") = ParamType.name :=
  ⟨inferType_eq_spec, by decide, by decide⟩

/-- C6: for every input string, the ID validator's output contains only
characters from `[A-Za-z0-9_-]` (allow-listed characters pass through after
normalization, everything else becomes `_`) and, after the 100-byte
truncation, has length at most 100. -/
theorem spec_c6_id_validator (s : Str) :
    (TypeAwareProcessor.ProcessString s ParamType.id).all allowedIDChar = true ∧
    (TypeAwareProcessor.ProcessString s ParamType.id).length ≤ 100 := by
  constructor
  · apply List.all_eq_true.mpr
    intro x hx
    have hmem := mem_truncCap hx
    rcases List.mem_map.mp hmem with ⟨b, hb, hfb⟩
    by_cases hab : allowedIDChar b = true
    · rw [if_pos hab] at hfb
      rw [← hfb]
      exact hab
    · rw [if_neg hab] at hfb
      rw [← hfb]
      decide
  · have h1 := length_le_utf8Len (TypeAwareProcessor.ProcessString s ParamType.id)
    have h2 : utf8Len (TypeAwareProcessor.ProcessString s ParamType.id) ≤ 100 :=
      utf8Len_truncCap_le 100 ((nfkc s).map (fun c => if allowedIDChar c then c else '_'))
    omega

/-- C7 counterexample: `sanitizeStringInput` truncates its *input* to 65535
bytes but applies lengthening replacements afterwards, so its output can
exceed 65535 bytes: on 65524 copies of `a` followed by `xp_cmdshell`
(a 65535-byte input) the output is 65536 bytes long. -/
theorem spec_c7_cap_counterexample : 65535 < utf8Len (sanitizeStringInput c7Input) := by
  rw [c7_out_utf8Len]
  omega

/-- C7 as amended: each type-aware validator truncates *after* its
replacement pass, so its output never exceeds its documented byte cap
(100 for ID, 500 for Name, 2000 for Generic, 10000 for Description);
`sanitizeStringInput` truncates its input to 65535 bytes before the
blocklist pass and its output is not capped. -/
theorem spec_c7_validator_caps (s : Str) :
    utf8Len (TypeAwareProcessor.ProcessString s ParamType.id) ≤ 100 ∧
    utf8Len (TypeAwareProcessor.ProcessString s ParamType.name) ≤ 500 ∧
    utf8Len (TypeAwareProcessor.ProcessString s ParamType.generic) ≤ 2000 ∧
    utf8Len (TypeAwareProcessor.ProcessString s ParamType.description) ≤ 10000 := by
  refine ⟨?_, ?_, ?_, ?_⟩ <;>
    rw [TypeAwareProcessor.ProcessString, TypeAwareProcessor.GetValidator]
  · rw [IDValidator.Validate]
    exact utf8Len_truncCap_le _ _
  · rw [NameValidator.Validate]
    exact utf8Len_truncCap_le _ _
  · rw [GenericValidator.Validate]
    exact utf8Len_truncCap_le _ _
  · rw [DescriptionValidator.Validate]
    exact utf8Len_truncCap_le _ _

/-- C8 counterexample: the Name validator applies its blocklist in a single
pass, and the replacement for `ascii` is `_ascii_`, which itself contains
`ascii`; so the lower-casing of `validate("ascii", Name)` still contains a
blocklist pattern, contradicting the claim. -/
theorem spec_c8_blocklist_counterexample :
    NameValidator.Validate (strL "ascii") = strL "_ascii_" ∧
    containsStr (toLowerStr (strL "_ascii_")) (strL "ascii") = true :=
  ⟨by decide, by decide⟩

/-- C8 as amended: the Name validator applies each blocklist pattern once,
in a single pass over the table (not iterated to a fixpoint); every
occurrence visible to the lower-cased scan at a pattern's turn is replaced
by that pattern's replacement, but patterns whose replacement embeds the
keyword (ascii, substring, concat, extractvalue, waitfor, delay) can
survive in the output.  For ASCII input, a pattern whose replacement
introduces no new match is eliminated: the lower-casing of the output
never contains `--` (the `--` pass replaces every occurrence with `__`,
and the later passes and the final truncation cannot reintroduce the
two-character marker).  The ASCII restriction is necessary: on non-ASCII
input a byte-length-changing lowering fold misaligns the byte indices of
`replaceCaseInsensitive` (see `goReplaceCaseInsensitiveBytes`), and Go's
`NameValidator.Validate("İİ--")` returns `"İ__--"`, whose lower-casing
still contains `--`. -/
theorem spec_c8_dd_eliminated (s : Str) (hascii : ∀ c ∈ s, c.toNat < 128) :
    containsStr (toLowerStr (NameValidator.Validate s)) (strL "--") = false := by
  have htab : namePatternTable =
      namePatternTable.take 16 ++ ((strL "--", strL "__") :: namePatternTable.drop 17) := by
    decide
  have hpost : ∀ pr ∈ namePatternTable.drop 17,
      pr.1 ≠ [] ∧ pr.2 ≠ [] ∧ '-' ∉ toLowerStr pr.2 := by decide
  show containsStr (toLowerStr (truncCap 500
      (applyPatterns (unifyWS (nfkc s)) namePatternTable))) (strL "--") = false
  rcases truncCap_eq_take 500 (applyPatterns (unifyWS (nfkc s)) namePatternTable) with ⟨k, hk⟩
  rw [hk]
  have e1 : toLowerStr ((applyPatterns (unifyWS (nfkc s)) namePatternTable).take k) =
      (toLowerStr (applyPatterns (unifyWS (nfkc s)) namePatternTable)).take k := by
    simp [toLowerStr, List.map_take]
  rw [e1, show (strL "--" : Str) = ['-', '-'] from by decide, containsStr_dd_eq_hasDD]
  apply hasDD_take
  rw [htab]
  exact hasDD_pass_split (unifyWS (nfkc s)) (namePatternTable.take 16)
    (namePatternTable.drop 17) hpost

theorem spec_c8_dd_eliminated_witness :
    containsStr (toLowerStr (NameValidator.Validate (strL "a--b"))) (strL "--") = false :=
  spec_c8_dd_eliminated (strL "a--b") (by decide)

/-- C9: the claimed contract — lower-case text and pattern for matching
only, scan left to right for non-overlapping occurrences, emit each
untouched preceding segment in its original casing followed by the
replacement — is violated by the Go code whenever `strings.ToLower`
changes a rune's byte length, because the loop applies byte indices
computed on the lowered buffer to the original string.  On
`replaceCaseInsensitive("İİ--", "--", "__")` (as `NameValidator.Validate`
invokes it on `"İİ--"`): `ToLower` shrinks each two-byte U+0130 to the
one-byte `i`, so the match of `--` at lowered byte offset 2 slices the
original at byte 2 — the middle of the text's runes — and the code
returns the bytes of `"İ__--"`, leaving the matched `--` in place, while
the contract requires `"İİ__"` (`rciSpec`, proved equal to the
code-point-aligned model by `replaceCI_eq_rciSpec`).  On rune-growing
folds the same arithmetic runs past the end of the original string and
the final `s[lastEnd:]` panics (e.g. `"Ⱥ--"`, where U+023A lowers to the
three-byte U+2C65), against the spec's statement that no documented
input panics. -/
theorem spec_c9_byte_misalignment :
    goReplaceCaseInsensitiveBytes (utf8Bytes (strL "İİ--")) (utf8Bytes (strL "ii--"))
        (utf8Bytes (strL "--")) 2 (utf8Bytes (strL "__")) =
      utf8Bytes (strL "İ__--") ∧
    rciSpec (strL "İİ--") (strL "--") (strL "__") = strL "İİ__" ∧
    utf8Bytes (strL "İ__--") ≠ utf8Bytes (strL "İİ__") :=
  ⟨by decide, by decide, by decide⟩

/-- C10: the `[]byte` branch of `literal` converts the bytes to a string
and runs the identical inference-validation-quoting pipeline, so a byte
sequence and the string formed from exactly its bytes always produce the
same single-quoted literal with the same absence of error. -/
theorem spec_c10_bytes_eq_string (b : Str) :
    literal (.vBytes b) = literal (.vStr b) := rfl
